import Mathlib

/-!
Verification of the LLM topic-exploration subsystem of MQTT-Explorer
(app/src/services/llmService.ts) against its natural-language specification.

The TypeScript source is shallowly embedded here.  JavaScript strings are
modelled as lists of characters (abbreviation Str); string literals are
written with the .data projection.  All definitions follow the source line
by line; the few places where the environment (the external tree store or
the Model Gateway) had to be modelled are marked in the doc comments.
-/

/-- JavaScript strings are modelled as lists of characters. -/
abbrev Str := List Char

namespace LLMService

/-- Embeds LLMService.estimateTokens: Math.ceil(text.length / 4). -/
def estimateTokens (text : Str) : Nat :=
  (text.length + 3) / 4

/-- Result record of truncateToTokenLimit: \x7b text, truncated \x7d. -/
structure TruncResult where
  text : Str
  truncated : Bool
  deriving DecidableEq

/-- Embeds LLMService.truncateToTokenLimit.  The local maxChars =
tokenLimit * 4 is inlined; the JS substring(0, maxChars - 3) clamps a
negative bound to 0 exactly as Nat subtraction does. -/
def truncateToTokenLimit (text : Str) (tokenLimit : Nat) : TruncResult :=
  if estimateTokens text ≤ tokenLimit then
    ⟨text, false⟩
  else if text.length ≤ tokenLimit * 4 then
    ⟨text, false⟩
  else
    ⟨text.take (tokenLimit * 4 - 3) ++ "...".data, true⟩

/-- One global single-character replacement, as the JS String.replace with a
single-character global regular expression: each occurrence of the target
character is replaced by the replacement string, without rescanning. -/
def replaceAll (target : Char) (repl : Str) : Str → Str
  | [] => []
  | c :: rest => (if c = target then repl else [c]) ++ replaceAll target repl rest

/-- Embeds LLMService.escapeToSingleLine: the five chained replacements,
backslash first. -/
def escapeToSingleLine (text : Str) : Str :=
  replaceAll '"' "\\\"".data
    (replaceAll '\t' "\\t".data
      (replaceAll '\r' "\\r".data
        (replaceAll '\n' "\\n".data
          (replaceAll '\\' "\\\\".data text))))

/-- Character-wise rendering of the escaping scheme, used to state that each
of the five special characters is rendered as its two-character escape
sequence (claim C7). -/
def escapeCharSpec (c : Char) : Str :=
  if c = '\\' then ['\\', '\\']
  else if c = '\n' then ['\\', 'n']
  else if c = '\r' then ['\\', 'r']
  else if c = '\t' then ['\\', 't']
  else if c = '"' then ['\\', '"']
  else [c]

/-- The escaping scheme applied character by character. -/
def escapedSpec : Str → Str
  | [] => []
  | c :: rest => escapeCharSpec c ++ escapedSpec rest

/-- Embeds LLMService.formatValueForContext.  The argument is the value
already rendered to a string (the source first applies JSON.stringify to
objects and String(...) to scalars; that rendering happens before the lines
modelled here). -/
def formatValueForContext (valueStr : Str) (tokenLimit : Nat)
    (markTruncation : Bool) : Str :=
  if (truncateToTokenLimit (escapeToSingleLine valueStr) tokenLimit).truncated
      && markTruncation then
    "[TRUNCATED] ".data
      ++ (truncateToTokenLimit (escapeToSingleLine valueStr) tokenLimit).text
  else
    (truncateToTokenLimit (escapeToSingleLine valueStr) tokenLimit).text

end LLMService

namespace LLMService

lemma replaceAll_append (target : Char) (repl : Str) (xs ys : Str) :
    replaceAll target repl (xs ++ ys)
      = replaceAll target repl xs ++ replaceAll target repl ys := by
  induction xs with
  | nil => simp [replaceAll]
  | cons c rest ih => simp [replaceAll, ih]

lemma escapeToSingleLine_append (xs ys : Str) :
    escapeToSingleLine (xs ++ ys)
      = escapeToSingleLine xs ++ escapeToSingleLine ys := by
  simp [escapeToSingleLine, replaceAll_append]

lemma escapedSpec_append (xs ys : Str) :
    escapedSpec (xs ++ ys) = escapedSpec xs ++ escapedSpec ys := by
  induction xs with
  | nil => simp [escapedSpec]
  | cons c rest ih => simp [escapedSpec, ih]

lemma escapeToSingleLine_single (c : Char) :
    escapeToSingleLine [c] = escapeCharSpec c := by
  by_cases h1 : c = '\\'
  · subst h1; rfl
  · by_cases h2 : c = '\n'
    · subst h2; rfl
    · by_cases h3 : c = '\r'
      · subst h3; rfl
      · by_cases h4 : c = '\t'
        · subst h4; rfl
        · by_cases h5 : c = '"'
          · subst h5; rfl
          · simp [escapeToSingleLine, replaceAll, escapeCharSpec,
              h1, h2, h3, h4, h5]

lemma escapeToSingleLine_eq_escapedSpec (t : Str) :
    escapeToSingleLine t = escapedSpec t := by
  induction t with
  | nil => rfl
  | cons c rest ih =>
    have : (c :: rest) = [c] ++ rest := rfl
    rw [this, escapeToSingleLine_append, escapedSpec_append,
      escapeToSingleLine_single, ih]
    simp [escapedSpec]

lemma newline_not_mem_escapeCharSpec (c : Char) : '\n' ∉ escapeCharSpec c := by
  by_cases h1 : c = '\\'
  · subst h1; decide
  · by_cases h2 : c = '\n'
    · subst h2; decide
    · by_cases h3 : c = '\r'
      · subst h3; decide
      · by_cases h4 : c = '\t'
        · subst h4; decide
        · by_cases h5 : c = '"'
          · subst h5; decide
          · simp only [escapeCharSpec, h1, h2, h3, h4, h5, if_false,
              List.mem_singleton]
            intro hc
            exact h2 hc.symm

lemma newline_not_mem_escapedSpec (t : Str) : '\n' ∉ escapedSpec t := by
  induction t with
  | nil => simp [escapedSpec]
  | cons c rest ih =>
    simp only [escapedSpec, List.mem_append]
    rintro (h | h)
    · exact newline_not_mem_escapeCharSpec c h
    · exact ih h

lemma newline_not_mem_escape (t : Str) : '\n' ∉ escapeToSingleLine t := by
  rw [escapeToSingleLine_eq_escapedSpec]; exact newline_not_mem_escapedSpec t

lemma newline_not_mem_trunc (t : Str) (b : Nat) (h : '\n' ∉ t) :
    '\n' ∉ (truncateToTokenLimit t b).text := by
  unfold truncateToTokenLimit
  split
  · exact h
  · split
    · exact h
    · intro hm
      simp only [List.mem_append] at hm
      rcases hm with hm | hm
      · exact h (List.take_subset _ _ hm)
      · simp at hm

/-- C5: for every text and positive budget, the truncation result fits the
budget, the flag is set exactly when the input did not fit, and a truncated
result is the prefix fitting the character-equivalent of the budget minus
the reserved three-character suffix, with the marker appended. -/
theorem c5_truncate (text : Str) (budget : Nat) (hb : 0 < budget) :
    estimateTokens (truncateToTokenLimit text budget).text ≤ budget ∧
    ((truncateToTokenLimit text budget).truncated ↔
      budget < estimateTokens text) ∧
    ((truncateToTokenLimit text budget).truncated →
      (truncateToTokenLimit text budget).text
        = text.take (budget * 4 - 3) ++ "...".data) := by
  unfold truncateToTokenLimit
  by_cases hfit : estimateTokens text ≤ budget
  · simp [hfit, Nat.not_lt_of_le hfit]
  · have hlt : budget < estimateTokens text := Nat.lt_of_not_le hfit
    have hlen : budget * 4 < text.length := by
      unfold estimateTokens at hlt
      omega
    have hlen2 : ¬ text.length ≤ budget * 4 := by omega
    simp only [hfit, if_false, hlen2, if_false]
    refine ⟨?_, by simp [hlt], by simp⟩
    have htake : (text.take (budget * 4 - 3)).length = budget * 4 - 3 := by
      rw [List.length_take]
      omega
    have : (text.take (budget * 4 - 3) ++ "...".data).length = budget * 4 := by
      rw [List.length_append, htake]
      have : ("...".data).length = 3 := rfl
      omega
    unfold estimateTokens
    rw [this]
    omega

/-- Witness for c5_truncate at a concrete input. -/
theorem c5_truncate_witness :
    0 < 2 ∧
    (estimateTokens
        (truncateToTokenLimit "abcdefghijklm".data 2).text ≤ 2 ∧
      ((truncateToTokenLimit "abcdefghijklm".data 2).truncated ↔
        2 < estimateTokens "abcdefghijklm".data) ∧
      ((truncateToTokenLimit "abcdefghijklm".data 2).truncated →
        (truncateToTokenLimit "abcdefghijklm".data 2).text
          = ("abcdefghijklm".data).take (2 * 4 - 3) ++ "...".data)) :=
  ⟨by decide, c5_truncate "abcdefghijklm".data 2 (by decide)⟩

/-- C7: for every payload value string, escapeToSingleLine renders each
backslash, newline, carriage return, tab and double quote as its
two-character escape sequence (it equals the character-wise rendering
escapedSpec), and the value line produced by formatValueForContext contains
no raw newline character, for every token limit and marking mode. -/
theorem c7_escape (v : Str) (tokenLimit : Nat) (mark : Bool) :
    escapeToSingleLine v = escapedSpec v ∧
    '\n' ∉ formatValueForContext v tokenLimit mark := by
  refine ⟨escapeToSingleLine_eq_escapedSpec v, ?_⟩
  unfold formatValueForContext
  have hesc : '\n' ∉ escapeToSingleLine v := newline_not_mem_escape v
  have htr : '\n' ∉ (truncateToTokenLimit (escapeToSingleLine v) tokenLimit).text :=
    newline_not_mem_trunc _ _ hesc
  split
  · intro hm
    simp only [List.mem_append] at hm
    rcases hm with hm | hm
    · simp at hm
    · exact htr hm
  · exact htr

/-! ## The topic tree

The tree store is an external collaborator: only its read accessors are
consumed (segment names, current message, history ring, ordered children,
parent reference).  A node is modelled as an immutable value; names and
nodes of child edges are always populated in the live tree, so an edge is a
pair of a name and a node, and the JS truthiness test on an edge name
becomes a test against the empty string.  The payload accessor
payload.format(type) is modelled by the resulting rendered string (none
when it yields null or undefined), and a history entry carries its rendered
timestamp (none when the timestamp is falsy) and rendered payload. -/

/-- One entry of the bounded history ring of a node. -/
structure HistMsg where
  timestampStr : Option Str
  payload : Option Str
  deriving DecidableEq

/-- The current payload of a node; fmt models payload.format(type)[0]. -/
structure Payload where
  fmt : Option Str
  deriving DecidableEq

/-- The current message of a node. -/
structure Message where
  payload : Option Payload
  retain : Bool
  deriving DecidableEq

/-- A topic tree node: current message, history ring (none models a node
without a usable messageHistory accessor), message count, the value of
childTopicCount(), and the ordered child edges. -/
inductive TopicNode where
  | mk (message : Option Message) (messageHistory : Option (List HistMsg))
       (messages : Nat) (childTopicCountV : Nat)
       (edges : List (Str × TopicNode)) : TopicNode

def TopicNode.message : TopicNode → Option Message
  | .mk m _ _ _ _ => m

def TopicNode.messageHistory : TopicNode → Option (List HistMsg)
  | .mk _ h _ _ _ => h

def TopicNode.messages : TopicNode → Nat
  | .mk _ _ ms _ _ => ms

def TopicNode.childTopicCountV : TopicNode → Nat
  | .mk _ _ _ cc _ => cc

def TopicNode.edges : TopicNode → List (Str × TopicNode)
  | .mk _ _ _ _ es => es

/-- Modelled from the spec: the computed path() of the external tree store
is parent.path() + "/" + segment, or the segment alone at the first level
under the empty-path root.  The DFS below passes each node its computed
path instead of calling a parent-chain accessor. -/
def childPath (parentPath name : Str) : Str :=
  if parentPath = [] then name else parentPath ++ '/' :: name

mutual
/-- Embeds LLMService.findTopicNode: if the current node path matches,
return it, otherwise search the children depth-first in order. -/
def findTopicNode (topicPath : Str) : TopicNode → Str → Option TopicNode
  | .mk m h ms cc edges, currentPath =>
    if currentPath = topicPath then some (.mk m h ms cc edges)
    else findTopicNodeInEdges topicPath edges currentPath

/-- The for-loop over edgeCollection.edges inside findTopicNode, with its
early return on the first hit. -/
def findTopicNodeInEdges (topicPath : Str) :
    List (Str × TopicNode) → Str → Option TopicNode
  | [], _ => none
  | (name, child) :: rest, parentPath =>
    match findTopicNode topicPath child (childPath parentPath name) with
    | some found => some found
    | none => findTopicNodeInEdges topicPath rest parentPath
end

mutual
/-- All nodes of the tree rooted at a node, paired with their computed
paths, in depth-first order (specification-side enumeration). -/
def allNodes : TopicNode → Str → List (Str × TopicNode)
  | .mk m h ms cc edges, p => (p, .mk m h ms cc edges) :: allNodesEdges edges p

/-- allNodes over a list of child edges. -/
def allNodesEdges : List (Str × TopicNode) → Str → List (Str × TopicNode)
  | [], _ => []
  | (name, child) :: rest, p =>
    allNodes child (childPath p name) ++ allNodesEdges rest p
end

lemma two_le_length_of_mem_ne {α : Type} {a b : α} {xs : List α}
    (ha : a ∈ xs) (hb : b ∈ xs) (hne : a ≠ b) : 2 ≤ xs.length := by
  match xs with
  | [] => simp at ha
  | [x] =>
    simp only [List.mem_singleton] at ha hb
    subst ha; subst hb
    exact absurd rfl hne
  | x :: y :: t => simp [List.length]

mutual

theorem find_mem (P : Str) (n : TopicNode) (p : Str) :
    ∀ m, findTopicNode P n p = some m → (P, m) ∈ allNodes n p := by
  cases n with
  | mk mm hh ms cc edges =>
    intro m' hm'
    by_cases hp : p = P
    · subst hp
      simp only [findTopicNode, if_pos, Option.some.injEq] at hm'
      subst hm'
      simp [allNodes]
    · simp only [findTopicNode, if_neg hp] at hm'
      simp only [allNodes]
      exact List.mem_cons_of_mem _ (find_mem_edges P edges p m' hm')

theorem find_mem_edges (P : Str) (es : List (Str × TopicNode)) (p : Str) :
    ∀ m, findTopicNodeInEdges P es p = some m → (P, m) ∈ allNodesEdges es p := by
  cases es with
  | nil =>
    intro m hm
    simp [findTopicNodeInEdges] at hm
  | cons e rest =>
    obtain ⟨name, child⟩ := e
    intro m hm
    unfold findTopicNodeInEdges at hm
    cases hf : findTopicNode P child (childPath p name) with
    | some found =>
      rw [hf, Option.some.injEq] at hm
      subst hm
      simp only [allNodesEdges]
      exact List.mem_append_left _ (find_mem P child (childPath p name) found hf)
    | none =>
      rw [hf] at hm
      simp only [allNodesEdges]
      exact List.mem_append_right _ (find_mem_edges P rest p m hm)

end

mutual

theorem find_none_iff (P : Str) (n : TopicNode) (p : Str) :
    findTopicNode P n p = none ↔ ∀ q ∈ allNodes n p, q.1 ≠ P := by
  cases n with
  | mk mm hh ms cc edges =>
    by_cases hp : p = P
    · subst hp
      constructor
      · intro hcontra
        simp [findTopicNode] at hcontra
      · intro hall
        exact ((hall (p, .mk mm hh ms cc edges) (by simp [allNodes]) rfl)).elim
    · simp only [findTopicNode, if_neg hp, allNodes]
      rw [find_none_iff_edges P edges p]
      constructor
      · intro hall q hq
        rcases List.mem_cons.mp hq with hq | hq
        · subst hq; exact hp
        · exact hall q hq
      · intro hall q hq
        exact hall q (List.mem_cons_of_mem _ hq)

theorem find_none_iff_edges (P : Str) (es : List (Str × TopicNode)) (p : Str) :
    findTopicNodeInEdges P es p = none ↔ ∀ q ∈ allNodesEdges es p, q.1 ≠ P := by
  cases es with
  | nil => simp [findTopicNodeInEdges, allNodesEdges]
  | cons e rest =>
    obtain ⟨name, child⟩ := e
    unfold findTopicNodeInEdges
    cases hf : findTopicNode P child (childPath p name) with
    | some found =>
      constructor
      · intro hcontra
        exact absurd hcontra (by simp)
      · intro hall
        exact ((hall (P, found)
          (by
            simp only [allNodesEdges]
            exact List.mem_append_left _
              (find_mem P child (childPath p name) found hf)) rfl)).elim
    | none =>
      simp only [allNodesEdges]
      rw [find_none_iff_edges P rest p]
      have hchild : ∀ q ∈ allNodes child (childPath p name), q.1 ≠ P :=
        (find_none_iff P child (childPath p name)).mp hf
      constructor
      · intro hall q hq
        rcases List.mem_append.mp hq with hq | hq
        · exact hchild q hq
        · exact hall q hq
      · intro hall q hq
        exact hall q (List.mem_append_right _ hq)

end

/-- C4: the path lookup used by all four tool operations returns NotFound
exactly when no node of the tree has computed path P, and returns the
unique node whose computed path equals P when exactly one exists; path
comparison is literal with no normalization, so an empty segment produced
by a doubled delimiter is matched as a distinct segment and never skipped
(the witness exercises a tree with an empty-named child). -/
theorem c4_resolve (P : Str) (root : TopicNode) :
    (findTopicNode P root [] = none ↔ ∀ q ∈ allNodes root [], q.1 ≠ P) ∧
    (∀ n, (P, n) ∈ allNodes root [] →
      ((allNodes root []).map Prod.fst).count P ≤ 1 →
      findTopicNode P root [] = some n) := by
  refine ⟨find_none_iff P root [], ?_⟩
  intro n hmem hcount
  cases hfind : findTopicNode P root [] with
  | none =>
    exact ((find_none_iff P root []).mp hfind (P, n) hmem rfl).elim
  | some m =>
    have hm : (P, m) ∈ allNodes root [] := find_mem P root [] m hfind
    by_cases hmn : m = n
    · rw [hmn]
    · exfalso
      have hpair : ((P, n) : Str × TopicNode) ≠ (P, m) := by
        intro hcontra
        exact hmn (congrArg Prod.snd hcontra).symm
      have hf1 : (P, n) ∈ (allNodes root []).filter (fun q => q.1 == P) :=
        List.mem_filter.mpr ⟨hmem, by simp⟩
      have hf2 : (P, m) ∈ (allNodes root []).filter (fun q => q.1 == P) :=
        List.mem_filter.mpr ⟨hm, by simp⟩
      have h2 : 2 ≤ ((allNodes root []).filter (fun q => q.1 == P)).length :=
        two_le_length_of_mem_ne hf1 hf2 hpair
      have hcnt : ((allNodes root []).map Prod.fst).count P
          = ((allNodes root []).filter (fun q => q.1 == P)).length := by
        rw [List.count_eq_countP]
        rw [List.countP_map]
        rw [List.countP_eq_length_filter]
        rfl
      omega

/-- Sample tree for the lookup witness: a leaf reached through an
empty-named child, so its computed path contains a doubled delimiter. -/
def sampleLeaf : TopicNode := .mk none none 0 0 []

def sampleB : TopicNode := .mk none none 0 0 [("b".data, sampleLeaf)]

def sampleA : TopicNode := .mk none none 0 0 [([], sampleB)]

def sampleRoot : TopicNode := .mk none none 0 0 [("a".data, sampleA)]

/-- Witness for c4_resolve: in the sample tree the path "a//b" (with a
doubled delimiter) resolves to the node reached through the empty-named
segment. -/
theorem c4_resolve_witness :
    (("a//b".data, sampleLeaf) ∈ allNodes sampleRoot [] ∧
      ((allNodes sampleRoot []).map Prod.fst).count "a//b".data ≤ 1) ∧
    findTopicNode "a//b".data sampleRoot [] = some sampleLeaf :=
  have h1 : ("a//b".data, sampleLeaf) ∈ allNodes sampleRoot [] := by
    simp [sampleRoot, sampleA, sampleB, sampleLeaf, allNodes, allNodesEdges,
      childPath]
  have h2 : ((allNodes sampleRoot []).map Prod.fst).count "a//b".data ≤ 1 := by
    decide
  ⟨⟨h1, h2⟩, (c4_resolve "a//b".data sampleRoot).2 sampleLeaf h1 h2⟩

/-! ## The four tool operations -/

/-- JS Array.prototype.slice(-m): for positive m the last m elements, for
m = 0 the whole array (since -0 is 0), for negative m the elements from
index -m on. -/
def jsSliceNeg {α : Type} (l : List α) (m : Int) : List α :=
  if m = 0 then l
  else if 0 < m then l.drop (l.length - m.toNat)
  else l.drop (-m).toNat

/-- JS Array.prototype.slice(0, e): the first e elements for e ≥ 0, all but
the last -e elements for negative e. -/
def jsSliceZeroTo {α : Type} (l : List α) (e : Int) : List α :=
  if 0 ≤ e then l.take e.toNat else l.take (l.length - (-e).toNat)

/-- Decimal rendering of a count interpolated into a template string. -/
def natStr (n : Nat) : Str := (Nat.repr n).data

/-- The guarded resolution rootNode ? this.findTopicNode(topicPath, rootNode) : null
shared by the four tool operations. -/
def resolveNode (topicPath : Str) (rootNode : Option TopicNode) : Option TopicNode :=
  match rootNode with
  | some r => findTopicNode topicPath r []
  | none => none

/-- Embeds the recent-messages window of queryTopicHistory:
messages.slice(-Math.min(limit, 20)). -/
def historyWindow (messages : List HistMsg) (limit : Int) : List HistMsg :=
  jsSliceNeg messages (min limit 20)

/-- Embeds the per-entry rendering [timestamp] value of queryTopicHistory;
the timestamp field already carries its toISOString rendering. -/
def histLine (msg : HistMsg) : Str :=
  '[' :: (match msg.timestampStr with
          | some ts => ts
          | none => "unknown".data)
    ++ ']' :: ' ' :: (match msg.payload with
                      | some pl => pl
                      | none => "null".data)

/-- Embeds LLMService.queryTopicHistory (200 token limit). -/
def queryTopicHistory (topicPath : Str) (limit : Int)
    (rootNode : Option TopicNode) : Str :=
  match resolveNode topicPath rootNode with
  | none => "Topic not found: ".data ++ topicPath
  | some node =>
    match node.messageHistory with
    | none => "No message history available for topic: ".data ++ topicPath
    | some messages =>
      if messages.length = 0 then
        "No messages in history for topic: ".data ++ topicPath
      else
        if (truncateToTokenLimit
            (List.intercalate ['\n']
              ((historyWindow messages limit).map histLine)) 200).truncated then
          (truncateToTokenLimit
            (List.intercalate ['\n']
              ((historyWindow messages limit).map histLine)) 200).text
            ++ "\n[TRUNCATED - showing first 200 tokens]".data
        else
          (truncateToTokenLimit
            (List.intercalate ['\n']
              ((historyWindow messages limit).map histLine)) 200).text

/-- The info lines of getTopic for a found node. -/
def getTopicInfo (topicPath : Str) (node : TopicNode) : List Str :=
  ("Topic: ".data ++ topicPath)
    :: ((match node.message with
         | some m =>
           (match m.payload with
            | some pl =>
              (match pl.fmt with
               | some v => ["Value: ".data ++ v]
               | none => [])
              ++ (if m.retain then ["Retained: true".data] else [])
            | none => [])
         | none => [])
      ++ (if node.messages ≠ 0 then
            ["Messages: ".data ++ natStr node.messages] else [])
      ++ (if node.childTopicCountV > 0 then
            ["Subtopics: ".data ++ natStr node.childTopicCountV] else []))

/-- Embeds LLMService.getTopic (200 token limit). -/
def getTopic (topicPath : Str) (rootNode : Option TopicNode) : Str :=
  match resolveNode topicPath rootNode with
  | none => "Topic not found: ".data ++ topicPath
  | some node =>
    if (truncateToTokenLimit
        (List.intercalate ['\n'] (getTopicInfo topicPath node)) 200).truncated then
      (truncateToTokenLimit
        (List.intercalate ['\n'] (getTopicInfo topicPath node)) 200).text
        ++ "\n[TRUNCATED]".data
    else
      (truncateToTokenLimit
        (List.intercalate ['\n'] (getTopicInfo topicPath node)) 200).text

/-- One rendered line of listChildren: value marker, full child path and
subtopic-count suffix. -/
def childEntryRender (topicPath : Str) (name : Str) (child : TopicNode) : Str :=
  (if (match child.message with
       | some m => m.payload.isSome
       | none => false) then "✓".data else "○".data)
    ++ ' ' :: (if topicPath = [] then name else topicPath ++ '/' :: name)
    ++ (if child.childTopicCountV > 0 then
          " (".data ++ natStr child.childTopicCountV ++ " subtopics)".data
        else [])

/-- The loop body of listChildren over the sliced edge window: edges whose
name is falsy (the empty string) are skipped, the rest are rendered. -/
def childEntries (topicPath : Str) : List (Str × TopicNode) → List Str
  | [] => []
  | (name, child) :: rest =>
    if name = [] then childEntries topicPath rest
    else childEntryRender topicPath name child :: childEntries topicPath rest

/-- The full rendered list body of listChildren for a found node. -/
def childrenBody (topicPath : Str) (node : TopicNode) (limit : Int) : Str :=
  "Child topics (".data
    ++ natStr (childEntries topicPath (jsSliceZeroTo node.edges (min limit 50))).length
    ++ "):\n".data
    ++ List.intercalate ['\n']
        (childEntries topicPath (jsSliceZeroTo node.edges (min limit 50)))

/-- Embeds LLMService.listChildren (200 token limit). -/
def listChildren (topicPath : Str) (limit : Int)
    (rootNode : Option TopicNode) : Str :=
  match resolveNode topicPath rootNode with
  | none => "Topic not found: ".data ++ topicPath
  | some node =>
    if node.edges.length = 0 then
      "No child topics found for: ".data ++ topicPath
    else
      if (truncateToTokenLimit (childrenBody topicPath node limit) 200).truncated then
        (truncateToTokenLimit (childrenBody topicPath node limit) 200).text
          ++ "\n[TRUNCATED - showing first 200 tokens]".data
      else
        (truncateToTokenLimit (childrenBody topicPath node limit) 200).text

mutual
/-- Modelled from the spec: the parent back-references of the external
tree store.  The DFS of findTopicNode is replayed accumulating the computed
paths of the ancestors of the visited node (root first), which is exactly
the sequence the parent-chain walk of listParents visits bottom-up with
unshift. -/
def findWithAncestors (topicPath : Str) :
    TopicNode → Str → List Str → Option (TopicNode × List Str)
  | .mk m h ms cc edges, currentPath, anc =>
    if currentPath = topicPath then some (.mk m h ms cc edges, anc)
    else findWithAncestorsInEdges topicPath edges currentPath (anc ++ [currentPath])

/-- findWithAncestors over a list of child edges. -/
def findWithAncestorsInEdges (topicPath : Str) :
    List (Str × TopicNode) → Str → List Str → Option (TopicNode × List Str)
  | [], _, _ => none
  | (name, child) :: rest, parentPath, anc =>
    match findWithAncestors topicPath child (childPath parentPath name) anc with
    | some found => some found
    | none => findWithAncestorsInEdges topicPath rest parentPath anc
end

/-- The indentation ' '.repeat(n) of listParents. -/
def indentSp (n : Nat) : Str := List.replicate n ' '

/-- The rendered hierarchy body of listParents for a found node with
nonempty ancestor list. -/
def parentsBody (topicPath : Str) (parents : List Str) : Str :=
  "Parent hierarchy:\n".data
    ++ List.intercalate ['\n']
        (parents.enum.map (fun q => indentSp (q.1 * 2) ++ q.2))
    ++ '\n' :: indentSp (parents.length * 2) ++ topicPath ++ " (current)".data

/-- The guarded resolution of listParents, keeping the ancestor paths. -/
def resolveWithAncestors (topicPath : Str) (rootNode : Option TopicNode) :
    Option (TopicNode × List Str) :=
  match rootNode with
  | some r => findWithAncestors topicPath r [] []
  | none => none

/-- Embeds LLMService.listParents (100 token limit).  The while-loop over
parent back-references collecting each truthy (nonempty) computed path
root-first is modelled by filtering the ancestor paths of the DFS. -/
def listParents (topicPath : Str) (rootNode : Option TopicNode) : Str :=
  match resolveWithAncestors topicPath rootNode with
  | none => "Topic not found: ".data ++ topicPath
  | some found =>
    if (found.2.filter (fun q => q ≠ [])).length = 0 then
      "No parent topics for: ".data ++ topicPath ++ " (root level topic)".data
    else
      if (truncateToTokenLimit
          (parentsBody topicPath (found.2.filter (fun q => q ≠ []))) 100).truncated then
        (truncateToTokenLimit
          (parentsBody topicPath (found.2.filter (fun q => q ≠ []))) 100).text
          ++ "\n[TRUNCATED]".data
      else
        (truncateToTokenLimit
          (parentsBody topicPath (found.2.filter (fun q => q ≠ []))) 100).text

/-! ## Token bounds of the tool outputs -/

lemma trunc_est_le (t : Str) (b : Nat) (hb : 0 < b) :
    estimateTokens (truncateToTokenLimit t b).text ≤ b := by
  unfold truncateToTokenLimit
  by_cases hfit : estimateTokens t ≤ b
  · simp [hfit]
  · have hlen : b * 4 < t.length := by
      unfold estimateTokens at hfit
      omega
    have hlen2 : ¬ t.length ≤ b * 4 := by omega
    simp only [hfit, if_false, hlen2]
    have htake : (t.take (b * 4 - 3)).length = b * 4 - 3 := by
      rw [List.length_take]; omega
    unfold estimateTokens
    rw [List.length_append, htake]
    simp only [List.length_cons, List.length_nil]
    omega

lemma trunc_truncated_length (t : Str) (b : Nat) (hb : 0 < b)
    (htr : (truncateToTokenLimit t b).truncated = true) :
    (truncateToTokenLimit t b).text.length = b * 4 := by
  unfold truncateToTokenLimit at htr ⊢
  by_cases hfit : estimateTokens t ≤ b
  · simp [hfit] at htr
  · have hlen : b * 4 < t.length := by
      unfold estimateTokens at hfit
      omega
    have hlen2 : ¬ t.length ≤ b * 4 := by omega
    simp only [hfit, if_false, hlen2]
    have htake : (t.take (b * 4 - 3)).length = b * 4 - 3 := by
      rw [List.length_take]; omega
    rw [List.length_append, htake]
    simp only [List.length_cons, List.length_nil]
    omega

lemma est_trunc_append (t : Str) (b : Nat) (s : Str) (hb : 0 < b)
    (htr : (truncateToTokenLimit t b).truncated = true) :
    estimateTokens ((truncateToTokenLimit t b).text ++ s)
      = b + (s.length + 3) / 4 := by
  have hlen := trunc_truncated_length t b hb htr
  unfold estimateTokens
  rw [List.length_append, hlen]
  omega

lemma est_trunc_marker_le (t : Str) (b : Nat) (s : Str) (hb : 0 < b) :
    estimateTokens
      (if (truncateToTokenLimit t b).truncated then
        (truncateToTokenLimit t b).text ++ s
      else (truncateToTokenLimit t b).text) ≤ b + (s.length + 3) / 4 := by
  by_cases htr : (truncateToTokenLimit t b).truncated
  · rw [if_pos htr, est_trunc_append t b s hb htr]
  · rw [if_neg htr]
    have := trunc_est_le t b hb
    omega

lemma childEntries_eq_filter_map (p : Str) (l : List (Str × TopicNode)) :
    childEntries p l
      = (l.filter (fun e => ¬ e.1 = [])).map
          (fun e => childEntryRender p e.1 e.2) := by
  induction l with
  | nil => simp [childEntries]
  | cons e rest ih =>
    obtain ⟨name, child⟩ := e
    by_cases hn : name = []
    · subst hn
      simp [childEntries, ih]
    · simp [childEntries, hn, ih]

/-- C8 (amended): for a found node (with, for history, a usable nonempty
history; for children, a nonempty edge list; for parents, a nonempty
ancestor list), the output of each operation stays within its stated
budget up to the length of the appended truncation marker: at most 210
estimated tokens for history and children, 203 for get_topic and 103 for
parents; the not-found and empty-state diagnostics instead embed the
requested path and are not budget-bounded. -/
theorem c8_budgets :
    (∀ (p : Str) (limit : Int) (root node : TopicNode) (msgs : List HistMsg),
      findTopicNode p root [] = some node →
      node.messageHistory = some msgs → msgs.length ≠ 0 →
      estimateTokens (queryTopicHistory p limit (some root)) ≤ 210) ∧
    (∀ (p : Str) (root node : TopicNode),
      findTopicNode p root [] = some node →
      estimateTokens (getTopic p (some root)) ≤ 203) ∧
    (∀ (p : Str) (limit : Int) (root node : TopicNode),
      findTopicNode p root [] = some node → node.edges.length ≠ 0 →
      estimateTokens (listChildren p limit (some root)) ≤ 210) ∧
    (∀ (p : Str) (root : TopicNode) (found : TopicNode × List Str),
      findWithAncestors p root [] [] = some found →
      (found.2.filter (fun q => q ≠ [])).length ≠ 0 →
      estimateTokens (listParents p (some root)) ≤ 103) := by
  refine ⟨?_, ?_, ?_, ?_⟩
  · intro p limit root node msgs hfind hhist hne
    have hres : resolveNode p (some root) = some node := by
      simp [resolveNode, hfind]
    unfold queryTopicHistory
    simp only [hres, hhist]
    rw [if_neg hne]
    have hb := est_trunc_marker_le
      (List.intercalate ['\n'] ((historyWindow msgs limit).map histLine)) 200
      "\n[TRUNCATED - showing first 200 tokens]".data (by norm_num)
    exact le_trans hb (by norm_num)
  · intro p root node hfind
    have hres : resolveNode p (some root) = some node := by
      simp [resolveNode, hfind]
    unfold getTopic
    simp only [hres]
    have hb := est_trunc_marker_le
      (List.intercalate ['\n'] (getTopicInfo p node)) 200
      "\n[TRUNCATED]".data (by norm_num)
    exact le_trans hb (by norm_num)
  · intro p limit root node hfind hne
    have hres : resolveNode p (some root) = some node := by
      simp [resolveNode, hfind]
    unfold listChildren
    simp only [hres]
    rw [if_neg hne]
    have hb := est_trunc_marker_le (childrenBody p node limit) 200
      "\n[TRUNCATED - showing first 200 tokens]".data (by norm_num)
    exact le_trans hb (by norm_num)
  · intro p root found hfa hlen
    have hres : resolveWithAncestors p (some root) = some found := by
      simp [resolveWithAncestors, hfa]
    unfold listParents
    simp only [hres]
    rw [if_neg hlen]
    have hb := est_trunc_marker_le
      (parentsBody p (found.2.filter (fun q => q ≠ []))) 100
      "\n[TRUNCATED]".data (by norm_num)
    exact le_trans hb (by norm_num)

/-- A long requested path for the unbounded not-found diagnostic. -/
def longPath : Str := List.replicate 813 'a'

/-- A root node whose single history entry has a long payload, forcing the
truncation marker to be appended. -/
def histNode : TopicNode :=
  .mk none (some [⟨none, some (List.replicate 900 'a')⟩]) 0 0 []

set_option maxRecDepth 100000 in
set_option maxHeartbeats 1000000 in
/-- Counterexample to C8 as stated: a not-found diagnostic echoing a long
path estimates at 208 tokens, and a found-and-truncated history output,
marker included, estimates at 210 tokens, both above the stated 200-token
budget. -/
theorem c8_counterexample :
    200 < estimateTokens (queryTopicHistory longPath 10 (some sampleLeaf)) ∧
    200 < estimateTokens (queryTopicHistory [] 10 (some histNode)) := by
  decide

/-- A node with an empty-named child edge before a named one. -/
def emptyNameNode : TopicNode :=
  .mk none none 0 0 [([], sampleLeaf), ("b".data, sampleLeaf)]

set_option maxRecDepth 100000 in
set_option maxHeartbeats 1000000 in
/-- Witness for c8_budgets at concrete found nodes. -/
theorem c8_budgets_witness :
    estimateTokens (queryTopicHistory [] 10 (some histNode)) ≤ 210 ∧
    estimateTokens (getTopic [] (some histNode)) ≤ 203 ∧
    estimateTokens (listChildren [] 10 (some emptyNameNode)) ≤ 210 ∧
    estimateTokens (listParents "a//b".data (some sampleRoot)) ≤ 103 :=
  ⟨c8_budgets.1 [] 10 histNode histNode
      [⟨none, some (List.replicate 900 'a')⟩] rfl rfl (by decide),
    c8_budgets.2.1 [] histNode histNode rfl,
    c8_budgets.2.2.1 [] 10 emptyNameNode emptyNameNode rfl (by decide),
    c8_budgets.2.2.2 "a//b".data sampleRoot
      (sampleLeaf, [[], "a".data, "a/".data]) rfl (by decide)⟩

/-- C9 (amended): for every requested limit ≥ 1 the history window holds at
most 20 entries and is exactly the newest min(limit, 20) messages in their
original (oldest-first) order; for every requested limit ≥ 0, list_children
renders, in original order, exactly those of the first min(limit, 50) child
edges whose name is nonempty (an empty-named edge is silently skipped, and
a limit ≤ 0 bypasses the history clamp, as the counterexample records). -/
theorem c9_limits :
    (∀ (messages : List HistMsg) (limit : Int), 1 ≤ limit →
      (historyWindow messages limit).length ≤ 20 ∧
      historyWindow messages limit
        = messages.drop (messages.length - (min limit 20).toNat)) ∧
    (∀ (p : Str) (edges : List (Str × TopicNode)) (limit : Int), 0 ≤ limit →
      childEntries p (jsSliceZeroTo edges (min limit 50))
        = ((edges.take ((min limit 50)).toNat).filter
            (fun e => ¬ e.1 = [])).map
            (fun e => childEntryRender p e.1 e.2)) := by
  constructor
  · intro messages limit hlim
    have hm1 : (1 : Int) ≤ min limit 20 := by omega
    have hm0 : ¬ (min limit 20 = 0) := by omega
    have hmpos : (0 : Int) < min limit 20 := by omega
    unfold historyWindow jsSliceNeg
    rw [if_neg hm0, if_pos hmpos]
    refine ⟨?_, rfl⟩
    rw [List.length_drop]
    have h20 : (min limit 20).toNat ≤ 20 := by omega
    omega
  · intro p edges limit hlim
    have hnn : (0 : Int) ≤ min limit 50 := by omega
    unfold jsSliceZeroTo
    rw [if_pos hnn]
    exact childEntries_eq_filter_map p _

/-- A node whose history ring holds 21 short messages. -/
def hist21Node : TopicNode :=
  .mk none (some (List.replicate 21 ⟨none, some "x".data⟩)) 0 0 []

set_option maxRecDepth 10000 in
/-- Counterexample to C9 as stated: with requested limit 0 the clamp is
bypassed and all 21 history entries are rendered (21 lines, hence 20
newline characters, where at most 20 entries were claimed), and
list_children with limit 2 on a node whose first child edge has an empty
name renders only one child instead of the first two. -/
theorem c9_counterexample :
    (queryTopicHistory [] 0 (some hist21Node)).count '\n' = 20 ∧
    listChildren [] 2 (some emptyNameNode) = "Child topics (1):\n○ b".data := by
  decide

/-- A node with five named children, for the first-2-of-5 instance. -/
def fiveChildNode : TopicNode :=
  .mk none none 0 0 [("c1".data, sampleLeaf), ("c2".data, sampleLeaf),
    ("c3".data, sampleLeaf), ("c4".data, sampleLeaf), ("c5".data, sampleLeaf)]

/-- Witness for c9_limits: a 30-entry history with requested limit 25 keeps
the newest 20, and limit 2 on a node with five children renders exactly the
first two in original order. -/
theorem c9_limits_witness :
    ((historyWindow (List.replicate 30 ⟨none, some "x".data⟩) 25).length ≤ 20 ∧
      historyWindow (List.replicate 30 ⟨none, some "x".data⟩) 25
        = (List.replicate 30 (⟨none, some "x".data⟩ : HistMsg)).drop
            ((List.replicate 30 (⟨none, some "x".data⟩ : HistMsg)).length
              - ((min (25 : Int) 20)).toNat)) ∧
    childEntries [] (jsSliceZeroTo fiveChildNode.edges (min 2 50))
      = ((fiveChildNode.edges.take ((min (2 : Int) 50)).toNat).filter
          (fun e => ¬ e.1 = [])).map
          (fun e => childEntryRender [] e.1 e.2) :=
  ⟨c9_limits.1 (List.replicate 30 ⟨none, some "x".data⟩) 25 (by norm_num),
    c9_limits.2 [] fiveChildNode.edges 2 (by norm_num)⟩

/-! ## generateTopicContext

The focus node is presented to generateTopicContext together with its
computed path and its parent accessor.  The parent is modelled by its
message, computed path and edge list (which, in the live tree, contains the
focus node itself among the children); the segment field records the edge
name of the focus node under its parent and is used only by the
specification-side definition of "siblings". -/

/-- The view of topic.parent consumed by generateTopicContext. -/
structure ParentView where
  message : Option Message
  path : Str
  edges : List (Str × TopicNode)

/-- The focus node with its computed path, its segment name under the
parent, and the parent view (none at the root). -/
structure FocusView where
  node : TopicNode
  path : Str
  segment : Str
  parent : Option ParentView

/-- The neighbors accumulator: the pushed entry lines and the running
token count. -/
structure NbSt where
  entries : List Str
  count : Nat
  deriving DecidableEq

/-- The composite candidate check of the neighbor tiers: message?.payload
present and format(...) returning a non-null value. -/
def valueOf (n : TopicNode) : Option Str :=
  match n.message with
  | some m =>
    match m.payload with
    | some pl => pl.fmt
    | none => none
  | none => none

/-- The value of the parent view under the same composite check. -/
def parentValueOf (pv : ParentView) : Option Str :=
  match pv.message with
  | some m =>
    match m.payload with
    | some pl => pl.fmt
    | none => none
  | none => none

/-- The rendered neighbor line "  fullPath: preview". -/
def neighborEntry (fullPath value : Str) (alloc : Nat) : Str :=
  "  ".data ++ fullPath ++ ": ".data ++ formatValueForContext value alloc false

/-- Embeds the addNeighbor helper of generateTopicContext: push the entry
when it fits the overall limit, report whether it was added. -/
def addNeighbor (tokenLimit : Nat) (st : NbSt) (fullPath value : Str)
    (alloc : Nat) : NbSt × Bool :=
  if st.count + estimateTokens (neighborEntry fullPath value alloc) ≤ tokenLimit then
    (⟨st.entries ++ [neighborEntry fullPath value alloc],
      st.count + estimateTokens (neighborEntry fullPath value alloc)⟩, true)
  else
    (st, false)

/-- The JS template "parentPath ? parentPath/name : name". -/
def pathJoin (a b : Str) : Str := if a = [] then b else a ++ '/' :: b

/-- The JS template "base ? base/mid/leaf : mid/leaf" of the grandchild
and cousin tiers. -/
def deepPath (base mid leaf : Str) : Str :=
  if base = [] then mid ++ '/' :: leaf else base ++ '/' :: mid ++ '/' :: leaf

/-- The parent path used to build sibling and cousin full paths. -/
def parentPathOf (fv : FocusView) : Str :=
  match fv.parent with
  | some pv => pv.path
  | none => []

/-- The edge list of the parent (empty when there is no parent). -/
def parentEdges (fv : FocusView) : List (Str × TopicNode) :=
  match fv.parent with
  | some pv => pv.edges
  | none => []

/-- Embeds priority 1 of generateTopicContext: the parent value. -/
def parentTier (tl : Nat) (fv : FocusView) (st : NbSt) : NbSt :=
  match fv.parent with
  | some pv =>
    match pv.message with
    | some m =>
      match m.payload with
      | some pl =>
        if st.count < tl then
          match pl.fmt with
          | some v => (addNeighbor tl st pv.path v 30).1
          | none => st
        else st
      | none => st
    | none => st
  | none => st

/-- Embeds the priority-2 loop of generateTopicContext over the parent
edges (which include the focus node itself): skip unnamed or valueless
edges, stop the tier at the first entry that does not fit. -/
def siblingsLoop (tl : Nat) (parentPath : Str) :
    NbSt → List (Str × TopicNode) → NbSt
  | st, [] => st
  | st, (name, node) :: rest =>
    if tl ≤ st.count then st
    else if name = [] then siblingsLoop tl parentPath st rest
    else
      match valueOf node with
      | none => siblingsLoop tl parentPath st rest
      | some v =>
        match addNeighbor tl st (pathJoin parentPath name) v 30 with
        | (st2, true) => siblingsLoop tl parentPath st2 rest
        | (st2, false) => st2

/-- Embeds the priority-3 loop of generateTopicContext over the direct
children, collecting the successfully added child nodes for the
grandchildren tier. -/
def childrenLoop (tl : Nat) (currentPath : Str) :
    NbSt → List (Str × TopicNode) → NbSt × List (Str × TopicNode)
  | st, [] => (st, [])
  | st, (name, node) :: rest =>
    if tl ≤ st.count then (st, [])
    else if name = [] then childrenLoop tl currentPath st rest
    else
      match valueOf node with
      | none => childrenLoop tl currentPath st rest
      | some v =>
        match addNeighbor tl st (pathJoin currentPath name) v 30 with
        | (st2, true) =>
          match childrenLoop tl currentPath st2 rest with
          | (st3, cns) => (st3, (name, node) :: cns)
        | (st2, false) => (st2, [])

/-- Embeds the inner priority-4 loop: the grandchildren of one collected
child; a non-fitting entry ends only this inner loop. -/
def grandInner (tl : Nat) (currentPath childName : Str) :
    NbSt → List (Str × TopicNode) → NbSt
  | st, [] => st
  | st, (name, node) :: rest =>
    if tl ≤ st.count then st
    else if name = [] then grandInner tl currentPath childName st rest
    else
      match valueOf node with
      | none => grandInner tl currentPath childName st rest
      | some v =>
        match addNeighbor tl st (deepPath currentPath childName name) v 30 with
        | (st2, true) => grandInner tl currentPath childName st2 rest
        | (st2, false) => st2

/-- Embeds the outer priority-4 loop over the collected child nodes. -/
def grandOuter (tl : Nat) (currentPath : Str) :
    NbSt → List (Str × TopicNode) → NbSt
  | st, [] => st
  | st, (cname, cnode) :: rest =>
    if tl ≤ st.count then st
    else grandOuter tl currentPath (grandInner tl currentPath cname st cnode.edges) rest

/-- Embeds the inner priority-5 loop: the children of one parent edge
("cousins"), at the smaller 25-token allocation. -/
def cousinsInner (tl : Nat) (parentPath sibName : Str) :
    NbSt → List (Str × TopicNode) → NbSt
  | st, [] => st
  | st, (name, node) :: rest =>
    if tl ≤ st.count then st
    else if name = [] then cousinsInner tl parentPath sibName st rest
    else
      match valueOf node with
      | none => cousinsInner tl parentPath sibName st rest
      | some v =>
        match addNeighbor tl st (deepPath parentPath sibName name) v 25 with
        | (st2, true) => cousinsInner tl parentPath sibName st2 rest
        | (st2, false) => st2

/-- Embeds the outer priority-5 loop over all parent edges (the focus node
itself among them, so its own children are visited again here). -/
def cousinsOuter (tl : Nat) (parentPath : Str) :
    NbSt → List (Str × TopicNode) → NbSt
  | st, [] => st
  | st, (sname, snode) :: rest =>
    if tl ≤ st.count then st
    else cousinsOuter tl parentPath (cousinsInner tl parentPath sname st snode.edges) rest

/-- The priority-2 stage with its guard (parent and edge collection
present). -/
def siblingsStage (fv : FocusView) (tl : Nat) (st : NbSt) : NbSt :=
  match fv.parent with
  | some pv => siblingsLoop tl pv.path st pv.edges
  | none => st

/-- The priority-3 stage with its guard (token budget not exhausted). -/
def childrenStage (fv : FocusView) (tl : Nat) (st : NbSt) :
    NbSt × List (Str × TopicNode) :=
  if st.count < tl then childrenLoop tl fv.path st fv.node.edges else (st, [])

/-- The priority-5 stage with its guard (parent present, budget left). -/
def cousinsStage (fv : FocusView) (tl : Nat) (st : NbSt) : NbSt :=
  match fv.parent with
  | some pv => if st.count < tl then cousinsOuter tl pv.path st pv.edges else st
  | none => st

/-- Embeds the neighbors computation of generateTopicContext: the five
priority tiers run in order against one shared token budget. -/
def relatedNeighbors (fv : FocusView) (tl : Nat) : NbSt :=
  cousinsStage fv tl
    (grandOuter tl fv.path
      (childrenStage fv tl (siblingsStage fv tl (parentTier tl fv ⟨[], 0⟩))).1
      (childrenStage fv tl (siblingsStage fv tl (parentTier tl fv ⟨[], 0⟩))).2)

/-- The head lines of generateTopicContext: path, formatted value (200
token allowance, truncation marked) and retained flag. -/
def contextHead (fv : FocusView) : List Str :=
  ("Topic: ".data ++ fv.path)
    :: (match fv.node.message with
        | some m =>
          match m.payload with
          | some pl =>
            (match pl.fmt with
             | some v => ["Value: ".data ++ formatValueForContext v 200 true]
             | none => [])
            ++ (if m.retain then ["Retained: true".data] else [])
          | none => []
        | none => [])

/-- Embeds LLMService.generateTopicContext: head lines, the related
section when nonempty, then the message and subtopic counters. -/
def generateTopicContext (fv : FocusView) (tl : Nat) : Str :=
  List.intercalate ['\n']
    (contextHead fv
      ++ (if (relatedNeighbors fv tl).entries = [] then []
          else ['\n' :: "Related Topics (".data
                  ++ natStr (relatedNeighbors fv tl).entries.length ++ "):".data,
                List.intercalate ['\n'] (relatedNeighbors fv tl).entries])
      ++ (if fv.node.messages ≠ 0 then
            ['\n' :: "Messages: ".data ++ natStr fv.node.messages] else [])
      ++ (if fv.node.childTopicCountV > 0 then
            ["Subtopics: ".data ++ natStr fv.node.childTopicCountV] else []))

/-! ## Claim-side and amended descriptions of the related section -/

/-- First-fit append over a prepared candidate list (full path, value,
per-entry allowance): the first candidate that does not fit ends the
list. -/
def firstFitCands (tl : Nat) : NbSt → List (Str × Str × Nat) → NbSt
  | st, [] => st
  | st, (path, v, alloc) :: rest =>
    match addNeighbor tl st path v alloc with
    | (st2, true) => firstFitCands tl st2 rest
    | (st2, false) => st2

/-- The named, value-bearing edges with their values. -/
def namedValued (edges : List (Str × TopicNode)) : List (Str × TopicNode × Str) :=
  edges.filterMap (fun e =>
    if e.1 = [] then none
    else (valueOf e.2).map (fun v => (e.1, e.2, v)))

/-- Candidate triples for one tier: full path under a base path, value and
allowance. -/
def candTriples (base : Str) (alloc : Nat) (l : List (Str × TopicNode × Str)) :
    List (Str × Str × Nat) :=
  l.map (fun t => (pathJoin base t.1, t.2.2, alloc))

/-- The parent-value candidate list (claim and amended side alike). -/
def parentCands (fv : FocusView) : List (Str × Str × Nat) :=
  match fv.parent with
  | some pv => (parentValueOf pv).toList.map (fun v => (pv.path, v, 30))
  | none => []

/-- Definition following the words of claim C6: the siblings of the focus
node are the parent edges other than the focus node itself (identified by
its segment name). -/
def claimSiblings (fv : FocusView) : List (Str × TopicNode) :=
  match fv.parent with
  | some pv => pv.edges.filter (fun e => ¬ e.1 = fv.segment)
  | none => []

/-- Definition following the words of claim C6: fill the related section
under one overall budget in priority order — (1) the parent value, (2) all
direct siblings in original order, (3) all direct children in original
order, (4) all grandchildren in original order, (5) all cousins (children
of siblings) in original order at allowance 25 — first-fit within each
tier, later tiers still attempted. -/
def claimRelatedNeighbors (fv : FocusView) (tl : Nat) : NbSt :=
  firstFitCands tl
    (firstFitCands tl
      (firstFitCands tl
        (firstFitCands tl
          (firstFitCands tl ⟨[], 0⟩ (parentCands fv))
          (candTriples (parentPathOf fv) 30 (namedValued (claimSiblings fv))))
        (candTriples fv.path 30 (namedValued fv.node.edges)))
      (fv.node.edges.flatMap (fun e =>
        candTriples (pathJoin fv.path e.1) 30 (namedValued e.2.edges))))
    ((claimSiblings fv).flatMap (fun e =>
      candTriples (pathJoin (parentPathOf fv) e.1) 25 (namedValued e.2.edges)))

/-- A child with a value, under a focus node with a value. -/
def cChild : TopicNode := .mk (some ⟨some ⟨some "w".data⟩, false⟩) none 0 0 []

/-- The focus node of the C6 counterexample. -/
def cFocusNode : TopicNode :=
  .mk (some ⟨some ⟨some "v".data⟩, false⟩) none 0 0 [("c".data, cChild)]

/-- Its parent: no value of its own, a single child edge — the focus node
itself. -/
def cParentView : ParentView := ⟨none, "p".data, [("f".data, cFocusNode)]⟩

/-- The focus view for the C6 counterexample. -/
def cFV : FocusView := ⟨cFocusNode, "p/f".data, "f".data, some cParentView⟩

set_option maxRecDepth 10000 in
/-- Counterexample to C6 as stated: on a focus node with a value and one
value-bearing child, whose parent has no other children, the code emits
the focus node itself in the siblings tier and its child twice (once as a
child, once more as a "cousin"), while the tiers described by the claim
emit the child once and nothing else. -/
theorem c6_counterexample :
    (relatedNeighbors cFV 500).entries ≠ (claimRelatedNeighbors cFV 500).entries
      ∧ (relatedNeighbors cFV 500).entries
          = ["  p/f: v".data, "  p/f/c: w".data, "  p/f/c: w".data]
      ∧ (claimRelatedNeighbors cFV 500).entries = ["  p/f/c: w".data] := by
  decide

/-- Amended tier 3: first-fit append over the named value-bearing child
triples, collecting the emitted children. -/
def emitLoop (tl : Nat) (base : Str) (alloc : Nat) :
    NbSt → List (Str × TopicNode × Str) → NbSt × List (Str × TopicNode)
  | st, [] => (st, [])
  | st, (name, node, v) :: rest =>
    match addNeighbor tl st (pathJoin base name) v alloc with
    | (st2, true) =>
      match emitLoop tl base alloc st2 rest with
      | (st3, cns) => (st3, (name, node) :: cns)
    | (st2, false) => (st2, [])

/-- Amended tier 4, per emitted child: first-fit over its named
value-bearing children. -/
def grandFit (tl : Nat) (cp cname : Str) :
    NbSt → List (Str × TopicNode × Str) → NbSt
  | st, [] => st
  | st, (gname, _, v) :: rest =>
    match addNeighbor tl st (deepPath cp cname gname) v 30 with
    | (st2, true) => grandFit tl cp cname st2 rest
    | (st2, false) => st2

/-- Amended tier 4: one first-fit pass per emitted child, in order. -/
def grandAmOuter (tl : Nat) (cp : Str) :
    NbSt → List (Str × TopicNode) → NbSt
  | st, [] => st
  | st, (cname, cnode) :: rest =>
    grandAmOuter tl cp (grandFit tl cp cname st (namedValued cnode.edges)) rest

/-- Amended tier 5, per parent edge: first-fit over its named
value-bearing children at allowance 25. -/
def cousinFit (tl : Nat) (pp sname : Str) :
    NbSt → List (Str × TopicNode × Str) → NbSt
  | st, [] => st
  | st, (name, _, v) :: rest =>
    match addNeighbor tl st (deepPath pp sname name) v 25 with
    | (st2, true) => cousinFit tl pp sname st2 rest
    | (st2, false) => st2

/-- Amended tier 5: one first-fit pass per parent edge (the focus node
included), in order. -/
def cousinsAmOuter (tl : Nat) (pp : Str) :
    NbSt → List (Str × TopicNode) → NbSt
  | st, [] => st
  | st, (sname, snode) :: rest =>
    cousinsAmOuter tl pp (cousinFit tl pp sname st (namedValued snode.edges)) rest

/-- The amended description of the related section: (1) the parent value,
(2) all named value-bearing parent edges — the focus node itself included —
in original order, (3) all named value-bearing direct children in original
order, collecting the emitted ones, (4) for each emitted child its named
value-bearing children, per-child first-fit, (5) for every parent edge its
named value-bearing children — the focus node children again — at
allowance 25, per-edge first-fit; all against one shared budget. -/
def amendedRelated (fv : FocusView) (tl : Nat) : NbSt :=
  match emitLoop tl fv.path 30
      (firstFitCands tl
        (firstFitCands tl ⟨[], 0⟩ (parentCands fv))
        (candTriples (parentPathOf fv) 30 (namedValued (parentEdges fv))))
      (namedValued fv.node.edges) with
  | (st3, emitted) =>
    cousinsAmOuter tl (parentPathOf fv)
      (grandAmOuter tl fv.path st3 emitted)
      (parentEdges fv)

lemma one_le_entry (p v : Str) (a : Nat) :
    1 ≤ estimateTokens (neighborEntry p v a) := by
  unfold estimateTokens neighborEntry
  have h2 : ("  ".data).length = 2 := rfl
  rw [List.length_append, List.length_append, List.length_append, h2]
  omega

lemma addNeighbor_of_ge (tl : Nat) (st : NbSt) (p v : Str) (a : Nat)
    (h : tl ≤ st.count) : addNeighbor tl st p v a = (st, false) := by
  unfold addNeighbor
  rw [if_neg]
  have := one_le_entry p v a
  omega

lemma firstFitCands_of_ge (tl : Nat) (st : NbSt)
    (cs : List (Str × Str × Nat)) (h : tl ≤ st.count) :
    firstFitCands tl st cs = st := by
  cases cs with
  | nil => rfl
  | cons c rest =>
    obtain ⟨p, v, a⟩ := c
    simp [firstFitCands, addNeighbor_of_ge tl st p v a h]

lemma emitLoop_of_ge (tl : Nat) (b : Str) (a : Nat) (st : NbSt)
    (l : List (Str × TopicNode × Str)) (h : tl ≤ st.count) :
    emitLoop tl b a st l = (st, []) := by
  cases l with
  | nil => rfl
  | cons c rest =>
    obtain ⟨name, node, v⟩ := c
    simp [emitLoop, addNeighbor_of_ge tl st _ v a h]

lemma grandFit_of_ge (tl : Nat) (cp cn : Str) (st : NbSt)
    (l : List (Str × TopicNode × Str)) (h : tl ≤ st.count) :
    grandFit tl cp cn st l = st := by
  cases l with
  | nil => rfl
  | cons c rest =>
    obtain ⟨name, node, v⟩ := c
    simp [grandFit, addNeighbor_of_ge tl st _ v 30 h]

lemma cousinFit_of_ge (tl : Nat) (pp sn : Str) (st : NbSt)
    (l : List (Str × TopicNode × Str)) (h : tl ≤ st.count) :
    cousinFit tl pp sn st l = st := by
  cases l with
  | nil => rfl
  | cons c rest =>
    obtain ⟨name, node, v⟩ := c
    simp [cousinFit, addNeighbor_of_ge tl st _ v 25 h]

lemma grandAmOuter_of_ge (tl : Nat) (cp : Str) :
    ∀ (l : List (Str × TopicNode)) (st : NbSt), tl ≤ st.count →
      grandAmOuter tl cp st l = st := by
  intro l
  induction l with
  | nil => intro st h; rfl
  | cons c rest ih =>
    intro st h
    obtain ⟨cname, cnode⟩ := c
    simp only [grandAmOuter]
    rw [grandFit_of_ge tl cp cname st _ h]
    exact ih st h

lemma cousinsAmOuter_of_ge (tl : Nat) (pp : Str) :
    ∀ (l : List (Str × TopicNode)) (st : NbSt), tl ≤ st.count →
      cousinsAmOuter tl pp st l = st := by
  intro l
  induction l with
  | nil => intro st h; rfl
  | cons c rest ih =>
    intro st h
    obtain ⟨sname, snode⟩ := c
    simp only [cousinsAmOuter]
    rw [cousinFit_of_ge tl pp sname st _ h]
    exact ih st h

lemma parentTier_eq (tl : Nat) (fv : FocusView) (st : NbSt) :
    parentTier tl fv st = firstFitCands tl st (parentCands fv) := by
  unfold parentTier parentCands parentValueOf
  cases fv.parent with
  | none => rfl
  | some pv =>
    obtain ⟨pm, ppath, pedges⟩ := pv
    cases pm with
    | none => rfl
    | some m =>
      obtain ⟨mp, mr⟩ := m
      cases mp with
      | none => rfl
      | some pl =>
        obtain ⟨plf⟩ := pl
        cases plf with
        | none =>
          by_cases hlt : st.count < tl <;> simp [hlt, firstFitCands]
        | some v =>
          by_cases hlt : st.count < tl
          · simp only [if_pos hlt, Option.toList, List.map]
            cases haddr : addNeighbor tl st ppath v 30 with
            | mk st2 b =>
              cases b
              · simp [firstFitCands, haddr]
              · simp [firstFitCands, haddr]
          · simp only [if_neg hlt, Option.toList, List.map]
            rw [firstFitCands_of_ge]
            omega

lemma siblingsLoop_eq (tl : Nat) (pp : Str) :
    ∀ (edges : List (Str × TopicNode)) (st : NbSt),
      siblingsLoop tl pp st edges
        = firstFitCands tl st (candTriples pp 30 (namedValued edges)) := by
  intro edges
  induction edges with
  | nil => intro st; rfl
  | cons e rest ih =>
    intro st
    obtain ⟨name, node⟩ := e
    by_cases hge : tl ≤ st.count
    · rw [firstFitCands_of_ge tl st _ hge]
      simp [siblingsLoop, hge]
    · by_cases hn : name = []
      · subst hn
        simp only [siblingsLoop, if_neg hge, if_pos rfl]
        rw [ih]
        simp [namedValued]
      · cases hv : valueOf node with
        | none =>
          simp only [siblingsLoop, if_neg hge, if_neg hn, hv]
          rw [ih]
          simp [namedValued, hn, hv]
        | some v =>
          simp only [siblingsLoop, if_neg hge, if_neg hn, hv]
          have hnv : namedValued ((name, node) :: rest)
              = (name, node, v) :: namedValued rest := by
            simp [namedValued, hn, hv]
          rw [hnv]
          simp only [candTriples, List.map]
          cases haddr : addNeighbor tl st (pathJoin pp name) v 30 with
          | mk st2 b =>
            cases b
            · simp [firstFitCands, haddr]
            · simp only [firstFitCands, haddr]
              exact ih st2

lemma childrenLoop_eq (tl : Nat) (cp : Str) :
    ∀ (edges : List (Str × TopicNode)) (st : NbSt),
      childrenLoop tl cp st edges
        = emitLoop tl cp 30 st (namedValued edges) := by
  intro edges
  induction edges with
  | nil => intro st; rfl
  | cons e rest ih =>
    intro st
    obtain ⟨name, node⟩ := e
    by_cases hge : tl ≤ st.count
    · rw [emitLoop_of_ge tl cp 30 st _ hge]
      simp [childrenLoop, hge]
    · by_cases hn : name = []
      · subst hn
        simp only [childrenLoop, if_neg hge, if_pos rfl]
        rw [ih]
        simp [namedValued]
      · cases hv : valueOf node with
        | none =>
          simp only [childrenLoop, if_neg hge, if_neg hn, hv]
          rw [ih]
          simp [namedValued, hn, hv]
        | some v =>
          simp only [childrenLoop, if_neg hge, if_neg hn, hv]
          have hnv : namedValued ((name, node) :: rest)
              = (name, node, v) :: namedValued rest := by
            simp [namedValued, hn, hv]
          rw [hnv]
          cases haddr : addNeighbor tl st (pathJoin cp name) v 30 with
          | mk st2 b =>
            cases b
            · simp [emitLoop, haddr]
            · simp only [emitLoop, haddr]
              rw [ih st2]

lemma grandInner_eq (tl : Nat) (cp cn : Str) :
    ∀ (edges : List (Str × TopicNode)) (st : NbSt),
      grandInner tl cp cn st edges
        = grandFit tl cp cn st (namedValued edges) := by
  intro edges
  induction edges with
  | nil => intro st; rfl
  | cons e rest ih =>
    intro st
    obtain ⟨name, node⟩ := e
    by_cases hge : tl ≤ st.count
    · rw [grandFit_of_ge tl cp cn st _ hge]
      simp [grandInner, hge]
    · by_cases hn : name = []
      · subst hn
        simp only [grandInner, if_neg hge, if_pos rfl]
        rw [ih]
        simp [namedValued]
      · cases hv : valueOf node with
        | none =>
          simp only [grandInner, if_neg hge, if_neg hn, hv]
          rw [ih]
          simp [namedValued, hn, hv]
        | some v =>
          simp only [grandInner, if_neg hge, if_neg hn, hv]
          have hnv : namedValued ((name, node) :: rest)
              = (name, node, v) :: namedValued rest := by
            simp [namedValued, hn, hv]
          rw [hnv]
          cases haddr : addNeighbor tl st (deepPath cp cn name) v 30 with
          | mk st2 b =>
            cases b
            · simp [grandFit, haddr]
            · simp only [grandFit, haddr]
              rw [ih st2]

lemma cousinsInner_eq (tl : Nat) (pp sn : Str) :
    ∀ (edges : List (Str × TopicNode)) (st : NbSt),
      cousinsInner tl pp sn st edges
        = cousinFit tl pp sn st (namedValued edges) := by
  intro edges
  induction edges with
  | nil => intro st; rfl
  | cons e rest ih =>
    intro st
    obtain ⟨name, node⟩ := e
    by_cases hge : tl ≤ st.count
    · rw [cousinFit_of_ge tl pp sn st _ hge]
      simp [cousinsInner, hge]
    · by_cases hn : name = []
      · subst hn
        simp only [cousinsInner, if_neg hge, if_pos rfl]
        rw [ih]
        simp [namedValued]
      · cases hv : valueOf node with
        | none =>
          simp only [cousinsInner, if_neg hge, if_neg hn, hv]
          rw [ih]
          simp [namedValued, hn, hv]
        | some v =>
          simp only [cousinsInner, if_neg hge, if_neg hn, hv]
          have hnv : namedValued ((name, node) :: rest)
              = (name, node, v) :: namedValued rest := by
            simp [namedValued, hn, hv]
          rw [hnv]
          cases haddr : addNeighbor tl st (deepPath pp sn name) v 25 with
          | mk st2 b =>
            cases b
            · simp [cousinFit, haddr]
            · simp only [cousinFit, haddr]
              rw [ih st2]

lemma grandOuter_eq (tl : Nat) (cp : Str) :
    ∀ (l : List (Str × TopicNode)) (st : NbSt),
      grandOuter tl cp st l = grandAmOuter tl cp st l := by
  intro l
  induction l with
  | nil => intro st; rfl
  | cons c rest ih =>
    intro st
    obtain ⟨cname, cnode⟩ := c
    by_cases hge : tl ≤ st.count
    · simp only [grandOuter, if_pos hge, grandAmOuter]
      rw [grandFit_of_ge tl cp cname st _ hge,
        grandAmOuter_of_ge tl cp rest st hge]
    · simp only [grandOuter, if_neg hge, grandAmOuter]
      rw [grandInner_eq]
      exact ih _

lemma cousinsOuter_eq (tl : Nat) (pp : Str) :
    ∀ (l : List (Str × TopicNode)) (st : NbSt),
      cousinsOuter tl pp st l = cousinsAmOuter tl pp st l := by
  intro l
  induction l with
  | nil => intro st; rfl
  | cons c rest ih =>
    intro st
    obtain ⟨sname, snode⟩ := c
    by_cases hge : tl ≤ st.count
    · simp only [cousinsOuter, if_pos hge, cousinsAmOuter]
      rw [cousinFit_of_ge tl pp sname st _ hge,
        cousinsAmOuter_of_ge tl pp rest st hge]
    · simp only [cousinsOuter, if_neg hge, cousinsAmOuter]
      rw [cousinsInner_eq]
      exact ih _

lemma siblingsStage_eq (fv : FocusView) (tl : Nat) (st : NbSt) :
    siblingsStage fv tl st
      = firstFitCands tl st
          (candTriples (parentPathOf fv) 30 (namedValued (parentEdges fv))) := by
  unfold siblingsStage parentPathOf parentEdges
  cases fv.parent with
  | none => rfl
  | some pv => exact siblingsLoop_eq tl pv.path pv.edges st

lemma childrenStage_eq (fv : FocusView) (tl : Nat) (st : NbSt) :
    childrenStage fv tl st
      = emitLoop tl fv.path 30 st (namedValued fv.node.edges) := by
  unfold childrenStage
  by_cases hlt : st.count < tl
  · rw [if_pos hlt]
    exact childrenLoop_eq tl fv.path fv.node.edges st
  · rw [if_neg hlt, emitLoop_of_ge]
    omega

lemma cousinsStage_eq (fv : FocusView) (tl : Nat) (st : NbSt) :
    cousinsStage fv tl st
      = cousinsAmOuter tl (parentPathOf fv) st (parentEdges fv) := by
  unfold cousinsStage parentPathOf parentEdges
  cases fv.parent with
  | none => rfl
  | some pv =>
    show (if st.count < tl then cousinsOuter tl pv.path st pv.edges else st)
        = cousinsAmOuter tl pv.path st pv.edges
    by_cases hlt : st.count < tl
    · rw [if_pos hlt]
      exact cousinsOuter_eq tl pv.path pv.edges st
    · rw [if_neg hlt, cousinsAmOuter_of_ge]
      omega

/-- C6 (amended): the related section is filled in priority order against
one shared token budget, but tier 2 runs over all of the parent edges
(the focus node itself included), tier 4 visits only the children actually
emitted in tier 3 (per-child first-fit, a non-fitting entry ends only that
child), and tier 5 visits the children of every parent edge (the focus
node children reappear) at allowance 25, per-edge first-fit; within tiers
2 and 3 unnamed or valueless candidates are skipped rather than ending the
tier, and the first value-bearing candidate that does not fit ends the
tier. -/
theorem c6_related_tiers (fv : FocusView) (tl : Nat) :
    relatedNeighbors fv tl = amendedRelated fv tl := by
  unfold relatedNeighbors amendedRelated
  rw [parentTier_eq, siblingsStage_eq, childrenStage_eq, cousinsStage_eq,
    grandOuter_eq]

/-! ## The conversation orchestrator (sendMessage)

The Model Gateway is an external collaborator, consumed as a black-box
request/response function over the backend RPC; it is modelled as an
oracle giving, for the k-th call of the turn, either a thrown error
message, a null result, or a result \x7b response, toolCalls \x7d.  A tool
call carries its id, name and argument payload; the raw JSON payload is
modelled post-parse (malformed models a payload on which JSON.parse
throws, with the thrown message).  The tool-call normalization of the
alternate field names (function.name each versus name) is identity here.
findRootNode walks the parent chain of the focus node; since that chain
is the only use of the focus node in the tool path, the currentNode
argument is modelled by the root node it leads to. -/

/-- Message roles. -/
inductive Role where
  | system
  | user
  | assistant
  | tool
  deriving DecidableEq

/-- The parsed argument payload of a tool call. -/
structure ToolArgs where
  topic : Str
  limit : Option Int
  deriving DecidableEq

/-- The raw argument payload, modelled post-parse: malformed models a
payload on which JSON.parse throws, carrying the thrown message. -/
inductive ArgsPayload where
  | ok (args : ToolArgs)
  | malformed (msg : Str)
  deriving DecidableEq

/-- One tool invocation as returned by the Model Gateway. -/
structure ToolCall where
  id : Str
  name : Str
  args : ArgsPayload
  deriving DecidableEq

/-- One executed tool result keyed back to the invocation id. -/
structure ToolResult where
  tool_call_id : Str
  name : Str
  content : Str
  deriving DecidableEq

/-- One conversation message. -/
structure LLMMessage where
  role : Role
  content : Str
  tool_calls : Option (List ToolCall) := none
  tool_call_id : Option Str := none
  deriving DecidableEq

/-- One Model Gateway result. -/
structure GwResult where
  response : Str
  toolCalls : Option (List ToolCall)
  deriving DecidableEq

/-- The Model Gateway oracle: the k-th backend RPC call of the turn either
throws (error message), returns null, or returns a result. -/
abbrev Gateway := Nat → Except Str (Option GwResult)

/-- JS args.limit || default: 0, null and undefined all fall back. -/
def jsOrLimit (l : Option Int) (d : Int) : Int :=
  match l with
  | some v => if v = 0 then d else v
  | none => d

/-- Embeds LLMService.executeTool: parse failure is reported as error text
keyed to the invocation id; otherwise dispatch on the tool name. -/
def executeTool (tc : ToolCall) (rootNode : Option TopicNode) : ToolResult :=
  match tc.args with
  | .malformed e => ⟨tc.id, tc.name, "Error executing tool: ".data ++ e⟩
  | .ok a =>
    ⟨tc.id, tc.name,
      if tc.name = "query_topic_history".data then
        queryTopicHistory a.topic (jsOrLimit a.limit 10) rootNode
      else if tc.name = "get_topic".data then
        getTopic a.topic rootNode
      else if tc.name = "list_children".data then
        listChildren a.topic (jsOrLimit a.limit 20) rootNode
      else if tc.name = "list_parents".data then
        listParents a.topic rootNode
      else
        "Error: Unknown tool ".data
          ++ Char.ofNat 39 :: tc.name ++ [Char.ofNat 39]⟩

/-- The tool-result message pushed to history for one result. -/
def toolMsgOf (tr : ToolResult) : LLMMessage :=
  ⟨.tool, tr.content, none, some tr.tool_call_id⟩

/-- The assistant message carrying the tool calls of a round. -/
def assistantToolMsg (respText : Str) (tcs : List ToolCall) : LLMMessage :=
  ⟨.assistant, respText, some tcs, none⟩

/-- The messages one executed round appends: the assistant message carrying
the invocations, then one tool-result message per invocation in order. -/
def roundMsgs (root : Option TopicNode) (respText : Str)
    (tcs : List ToolCall) : List LLMMessage :=
  assistantToolMsg respText tcs
    :: (tcs.map (fun tc => executeTool tc root)).map toolMsgOf

/-- The record of one executed round: the response text it came with and
the batch of invocations it executed. -/
structure RoundRec where
  respText : Str
  batch : List ToolCall
  deriving DecidableEq

/-- The observable state of a turn: conversation history, the log of every
message appended during the turn, the history snapshot taken at each
gateway call, the executed invocations in order, the executed rounds, and
the next gateway call index. -/
structure LoopSt where
  history : List LLMMessage
  appendLog : List LLMMessage
  callLog : List (List LLMMessage)
  executed : List ToolCall
  rounds : List RoundRec
  callIdx : Nat
  deriving DecidableEq

/-- Take the pre-call history snapshot (a gateway call is being made). -/
def snap (st : LoopSt) : LoopSt :=
  {st with callLog := st.callLog ++ [st.history]}

/-- Snapshot and advance the call index (the call returned). -/
def bump (st : LoopSt) : LoopSt :=
  {st with callLog := st.callLog ++ [st.history], callIdx := st.callIdx + 1}

/-- Execute one round: append the assistant message and the tool results,
record the batch. -/
def roundPush (root : Option TopicNode) (respText : Str) (tcs : List ToolCall)
    (st : LoopSt) : LoopSt :=
  ⟨st.history ++ roundMsgs root respText tcs,
   st.appendLog ++ roundMsgs root respText tcs,
   st.callLog,
   st.executed ++ tcs,
   st.rounds ++ [⟨respText, tcs⟩],
   st.callIdx⟩

/-- How the while-loop of sendMessage ends: a thrown error, or the last
response text and tool calls at the break (or at the round cap). -/
inductive LoopExit where
  | thrown (msg : Str)
  | finished (am : Str) (tcs : Option (List ToolCall))
  deriving DecidableEq

/-- Embeds the while (toolRound < maxToolRounds) loop of sendMessage; the
fuel is the number of remaining rounds, 5 at entry.  Each iteration calls
the gateway; a null result throws, a result with text or without tool
calls breaks, and otherwise the round is executed and the loop
continues. -/
def toolLoop (g : Gateway) (root : Option TopicNode) :
    Nat → LoopSt → Str → Option (List ToolCall) → LoopSt × LoopExit
  | 0, st, am, tcs => (st, .finished am tcs)
  | Nat.succ fuel, st, _, _ =>
    match g st.callIdx with
    | .error e => (snap st, .thrown e)
    | .ok none => (snap st, .thrown "No response from AI assistant".data)
    | .ok (some r) =>
      match r.toolCalls with
      | none => (bump st, .finished r.response none)
      | some [] => (bump st, .finished r.response (some []))
      | some (t :: ts) =>
        if r.response = [] then
          toolLoop g root fuel
            (roundPush root r.response (t :: ts) (bump st))
            r.response (some (t :: ts))
        else
          (bump st, .finished r.response (some (t :: ts)))

/-- The outcome of a turn: the returned value or the thrown error. -/
inductive SendRes where
  | ok (r : GwResult)
  | thrown (msg : Str)
  deriving DecidableEq

/-- The observable outcome of sendMessage. -/
structure SendOutcome where
  result : SendRes
  history : List LLMMessage
  appendLog : List LLMMessage
  callLog : List (List LLMMessage)
  executed : List ToolCall
  rounds : List RoundRec
  deriving DecidableEq

/-- The catch-block rethrow: new Error(err.message || fallback). -/
def wrapErr (e : Str) : Str :=
  if e = [] then "Failed to get response from AI assistant.".data else e

/-- The user message content, with the topic context prepended when
provided. -/
def userContent (userMessage : Str) (topicContext : Option Str) : Str :=
  match topicContext with
  | some ctx =>
    "Context:\n".data ++ ctx ++ "\n\nUser Question: ".data ++ userMessage
  | none => userMessage

/-- The user message pushed at the start of the turn. -/
def userMsgOf (userMessage : Str) (topicContext : Option Str) : LLMMessage :=
  ⟨.user, userContent userMessage topicContext, none, none⟩

/-- The state after pushing the user message and snapshotting for the
initial gateway call. -/
def initSt (userMessage : Str) (topicContext : Option Str)
    (history0 : List LLMMessage) : LoopSt :=
  ⟨history0 ++ [userMsgOf userMessage topicContext],
   [userMsgOf userMessage topicContext],
   [history0 ++ [userMsgOf userMessage topicContext]],
   [], [], 1⟩

/-- The history trim at the end of a successful turn: keep the first
message and the last ten. -/
def trimHistory (h : List LLMMessage) : List LLMMessage :=
  if 11 < h.length then h.take 1 ++ h.drop (h.length - 10) else h

/-- Package an early (thrown or returned) outcome. -/
def mkOutcome (res : SendRes) (st : LoopSt) : SendOutcome :=
  ⟨res, st.history, st.appendLog, st.callLog, st.executed, st.rounds⟩

/-- The tail of a successful turn: push the final assistant message, trim
the history, return the response and the last tool calls. -/
def sendFinal (am : Str) (tcs : Option (List ToolCall)) (st : LoopSt) :
    SendOutcome :=
  ⟨.ok ⟨am, tcs⟩,
   trimHistory (st.history ++ [⟨.assistant, am, none, none⟩]),
   st.appendLog ++ [⟨.assistant, am, none, none⟩],
   st.callLog, st.executed, st.rounds⟩

/-- After the loop: a thrown error propagates through the catch; an empty
final text throws; otherwise the turn finishes. -/
def sendFinish (p : LoopSt × LoopExit) : SendOutcome :=
  match p with
  | (st, .thrown e) => mkOutcome (.thrown (wrapErr e)) st
  | (st, .finished am tcs) =>
    if am = [] then
      mkOutcome (.thrown (wrapErr "No final response from AI assistant".data)) st
    else
      sendFinal am tcs st

/-- Embeds LLMService.sendMessage over the gateway oracle: push the user
message, make the initial call, validate, execute the requested tools
(when a focus node provides tree access), loop up to five more rounds, and
finish or rethrow. -/
def sendMessage (g : Gateway) (userMessage : Str) (topicContext : Option Str)
    (currentNode : Option TopicNode) (history0 : List LLMMessage) :
    SendOutcome :=
  match g 0 with
  | .error e =>
    mkOutcome (.thrown (wrapErr e)) (initSt userMessage topicContext history0)
  | .ok none =>
    mkOutcome (.thrown (wrapErr "No response from AI assistant".data))
      (initSt userMessage topicContext history0)
  | .ok (some r) =>
    if r.response = [] ∧ r.toolCalls = none then
      mkOutcome (.thrown (wrapErr "No response from AI assistant".data))
        (initSt userMessage topicContext history0)
    else
      match r.toolCalls with
      | some (t :: ts) =>
        match currentNode with
        | none =>
          mkOutcome
            (.ok ⟨"Tool execution not available (no topic context)".data,
              some (t :: ts)⟩)
            (initSt userMessage topicContext history0)
        | some root =>
          sendFinish
            (toolLoop g (some root) 5
              (roundPush (some root) r.response (t :: ts)
                (initSt userMessage topicContext history0))
              r.response (some (t :: ts)))
      | _ =>
        sendFinal r.response r.toolCalls
          (initSt userMessage topicContext history0)

/-- C10: when the first gateway response carries tool invocations but no
focus node was provided, no tool is executed, no assistant or tool message
is appended, and sendMessage returns the fixed text together with the
unexecuted tool calls instead of throwing. -/
theorem c10_no_context (g : Gateway) (um : Str) (ctx : Option Str)
    (h0 : List LLMMessage) (r : GwResult) (t : ToolCall) (ts : List ToolCall)
    (hg0 : g 0 = .ok (some r)) (htc : r.toolCalls = some (t :: ts)) :
    (sendMessage g um ctx none h0).result
      = .ok ⟨"Tool execution not available (no topic context)".data,
          some (t :: ts)⟩ ∧
    (sendMessage g um ctx none h0).executed = [] ∧
    (sendMessage g um ctx none h0).appendLog = [userMsgOf um ctx] ∧
    (sendMessage g um ctx none h0).history = h0 ++ [userMsgOf um ctx] := by
  have hval : ¬ (r.response = [] ∧ r.toolCalls = none) := by
    rintro ⟨-, hcontra⟩
    rw [htc] at hcontra
    cases hcontra
  unfold sendMessage
  simp only [hg0]
  rw [if_neg hval]
  simp only [htc]
  exact ⟨rfl, rfl, rfl, rfl⟩

/-- A tool call used by the concrete gateway scripts. -/
def tcA : ToolCall := ⟨"a".data, "get_topic".data, .ok ⟨"x".data, none⟩⟩

/-- A second tool call used by the concrete gateway scripts. -/
def tcB : ToolCall := ⟨"b".data, "get_topic".data, .ok ⟨"y".data, none⟩⟩

/-- A gateway that always requests one more tool call and never produces
text. -/
def alwaysToolsGw : Gateway := fun _ => .ok (some ⟨[], some [tcA]⟩)

/-- Witness for c10_no_context at the concrete always-tools gateway. -/
theorem c10_no_context_witness :
    (sendMessage alwaysToolsGw "q".data none none []).result
      = .ok ⟨"Tool execution not available (no topic context)".data,
          some [tcA]⟩ ∧
    (sendMessage alwaysToolsGw "q".data none none []).executed = [] ∧
    (sendMessage alwaysToolsGw "q".data none none []).appendLog
      = [userMsgOf "q".data none] ∧
    (sendMessage alwaysToolsGw "q".data none none []).history
      = [] ++ [userMsgOf "q".data none] :=
  c10_no_context alwaysToolsGw "q".data none [] ⟨[], some [tcA]⟩ tcA [] rfl rfl

lemma toolLoop_all_tools (g : Gateway) (root : Option TopicNode) :
    ∀ (fuel : Nat) (st : LoopSt) (am : Str) (tcs : Option (List ToolCall)),
      (∀ k, st.callIdx ≤ k → k < st.callIdx + fuel →
        ∃ r l, g k = .ok (some r) ∧ r.response = [] ∧
          r.toolCalls = some l ∧ l ≠ []) →
      ((toolLoop g root fuel st am tcs).1.callLog.length
          = st.callLog.length + fuel ∧
        (toolLoop g root fuel st am tcs).1.rounds.length
          = st.rounds.length + fuel ∧
        (1 ≤ fuel → ∃ l, l ≠ [] ∧
          (toolLoop g root fuel st am tcs).2 = .finished [] (some l))) := by
  intro fuel
  induction fuel with
  | zero =>
    intro st am tcs hcont
    refine ⟨rfl, rfl, ?_⟩
    intro hcontra
    omega
  | succ fuel ih =>
    intro st am tcs hcont
    obtain ⟨r, l, hg, hresp, htcs, hlne⟩ :=
      hcont st.callIdx (le_refl _) (by omega)
    obtain ⟨t, ts, rfl⟩ : ∃ t ts, l = t :: ts := by
      cases l with
      | nil => exact absurd rfl hlne
      | cons a b => exact ⟨a, b, rfl⟩
    simp only [toolLoop, hg, htcs, if_pos hresp]
    have hidx : (roundPush root r.response (t :: ts) (bump st)).callIdx
        = st.callIdx + 1 := rfl
    have hcl : (roundPush root r.response (t :: ts) (bump st)).callLog.length
        = st.callLog.length + 1 := by
      simp [roundPush, bump]
    have hrd : (roundPush root r.response (t :: ts) (bump st)).rounds.length
        = st.rounds.length + 1 := by
      simp [roundPush, bump]
    have hcont2 : ∀ k,
        (roundPush root r.response (t :: ts) (bump st)).callIdx ≤ k →
        k < (roundPush root r.response (t :: ts) (bump st)).callIdx + fuel →
        ∃ r2 l2, g k = .ok (some r2) ∧ r2.response = [] ∧
          r2.toolCalls = some l2 ∧ l2 ≠ [] := by
      intro k hk1 hk2
      rw [hidx] at hk1 hk2
      exact hcont k (by omega) (by omega)
    rcases Nat.eq_zero_or_pos fuel with hf | hf
    · subst hf
      refine ⟨by simp [toolLoop, hcl], by simp [toolLoop, hrd], ?_⟩
      intro hge
      refine ⟨t :: ts, by simp, ?_⟩
      simp only [toolLoop]
      rw [hresp]
    · obtain ⟨ha, hb, hc⟩ := ih
        (roundPush root r.response (t :: ts) (bump st))
        r.response (some (t :: ts)) hcont2
      refine ⟨?_, ?_, ?_⟩
      · rw [ha, hcl]; omega
      · rw [hb, hrd]; omega
      · intro hge
        exact hc hf

/-- C1 (amended): against a gateway whose first response requests tool
calls and whose every later response carries at least one tool invocation
and no text, sendMessage halts after exactly 5 follow-up rounds (six
gateway calls and six executed batches in total, never looping), but the
round cap is fatal in this situation: since no text ever arrived, the turn
is raised to the caller as the error "No final response from AI assistant"
rather than surfacing partial text or an exhaustion notice. -/
theorem c1_round_cap (g : Gateway) (um : Str) (ctx : Option Str)
    (root : TopicNode) (h0 : List LLMMessage) (r0 : GwResult)
    (l0 : List ToolCall)
    (hg0 : g 0 = .ok (some r0)) (ht0 : r0.toolCalls = some l0) (hl0 : l0 ≠ [])
    (hcont : ∀ k, 1 ≤ k → k ≤ 5 →
      ∃ r l, g k = .ok (some r) ∧ r.response = [] ∧
        r.toolCalls = some l ∧ l ≠ []) :
    (sendMessage g um ctx (some root) h0).result
      = .thrown ("No final response from AI assistant".data) ∧
    (sendMessage g um ctx (some root) h0).callLog.length = 6 ∧
    (sendMessage g um ctx (some root) h0).rounds.length = 6 := by
  obtain ⟨t, ts, rfl⟩ : ∃ t ts, l0 = t :: ts := by
    cases l0 with
    | nil => exact absurd rfl hl0
    | cons a b => exact ⟨a, b, rfl⟩
  have hval : ¬ (r0.response = [] ∧ r0.toolCalls = none) := by
    rintro ⟨-, hcontra⟩
    rw [ht0] at hcontra
    cases hcontra
  unfold sendMessage
  simp only [hg0]
  rw [if_neg hval]
  simp only [ht0]
  obtain ⟨ha, hb, hc⟩ := toolLoop_all_tools g (some root) 5
    (roundPush (some root) r0.response (t :: ts) (initSt um ctx h0))
    r0.response (some (t :: ts))
    (by
      intro k hk1 hk2
      have h1 : (roundPush (some root) r0.response (t :: ts)
          (initSt um ctx h0)).callIdx = 1 := rfl
      rw [h1] at hk1 hk2
      exact hcont k hk1 (by omega))
  obtain ⟨l, hlne, hfin⟩ := hc (by norm_num)
  rcases hp : toolLoop g (some root) 5
      (roundPush (some root) r0.response (t :: ts) (initSt um ctx h0))
      r0.response (some (t :: ts)) with ⟨st2, ex⟩
  rw [hp] at ha hb hfin
  simp only at ha hb hfin
  subst hfin
  have hch : (roundPush (some root) r0.response (t :: ts)
      (initSt um ctx h0)).callLog.length = 1 := rfl
  have hrh : (roundPush (some root) r0.response (t :: ts)
      (initSt um ctx h0)).rounds.length = 1 := rfl
  rw [hch] at ha
  rw [hrh] at hb
  simp only [sendFinish, mkOutcome, eq_self_iff_true, if_true]
  refine ⟨?_, by omega, by omega⟩
  have hw : wrapErr ("No final response from AI assistant".data)
      = "No final response from AI assistant".data := by decide
  rw [hw]

set_option maxRecDepth 10000 in
/-- Counterexample to C1 as stated: with a gateway stub that always
requests one more tool call and never produces text, reaching the round
cap IS raised as an error — sendMessage throws "No final response from AI
assistant" instead of surfacing partial text or an exhaustion notice. -/
theorem c1_counterexample :
    (sendMessage alwaysToolsGw "q".data none (some sampleLeaf) []).result
      = .thrown ("No final response from AI assistant".data) := by
  decide

/-- Witness for c1_round_cap at the concrete always-tools gateway. -/
theorem c1_round_cap_witness :
    (sendMessage alwaysToolsGw "q".data none (some sampleLeaf) []).result
      = .thrown ("No final response from AI assistant".data) ∧
    (sendMessage alwaysToolsGw "q".data none (some sampleLeaf) []).callLog.length = 6 ∧
    (sendMessage alwaysToolsGw "q".data none (some sampleLeaf) []).rounds.length = 6 :=
  c1_round_cap alwaysToolsGw "q".data none sampleLeaf []
    ⟨[], some [tcA]⟩ [tcA] rfl rfl (by decide)
    (fun k h1 h2 => ⟨⟨[], some [tcA]⟩, [tcA], rfl, rfl, rfl, by decide⟩)

lemma single_entry_log {x h : List LLMMessage} {k : Nat}
    (hlog : ([x] : List (List LLMMessage)).get? k = some h) :
    k = 0 ∧ h = x := by
  cases k with
  | zero =>
    simp only [List.get?] at hlog
    exact ⟨rfl, (Option.some.injEq _ _ ▸ hlog).symm⟩
  | succ n =>
    simp [List.get?] at hlog

lemma callLog_entry (l : List (List LLMMessage)) (x h : List LLMMessage)
    (k : Nat) (hlog : (l ++ [x]).get? k = some h) :
    (k < l.length ∧ l.get? k = some h) ∨ (k = l.length ∧ h = x) := by
  by_cases hk : k < l.length
  · left
    refine ⟨hk, ?_⟩
    rw [List.get?_append hk] at hlog
    exact hlog
  · right
    rw [List.get?_append_right (by omega)] at hlog
    rcases hd : k - l.length with _ | n
    · rw [hd] at hlog
      simp only [List.get?] at hlog
      exact ⟨by omega, (Option.some.injEq _ _ ▸ hlog).symm⟩
    · rw [hd] at hlog
      simp [List.get?] at hlog

lemma sendFinish_callLog (p : LoopSt × LoopExit) :
    (sendFinish p).callLog = p.1.callLog := by
  rcases p with ⟨st, ex⟩
  cases ex with
  | thrown e => rfl
  | finished am tcs =>
    by_cases ham : am = [] <;> simp [sendFinish, sendFinal, mkOutcome, ham]

lemma toolLoop_fail (g : Gateway) (root : Option TopicNode) :
    ∀ (fuel : Nat) (st : LoopSt) (am : Str) (tcs : Option (List ToolCall)),
      st.callLog.length = st.callIdx →
      (∀ j, j < st.callIdx → ∃ r, g j = .ok (some r)) →
      ∀ (k : Nat) (h : List LLMMessage) (e : Str),
        (toolLoop g root fuel st am tcs).1.callLog.get? k = some h →
        g k = .error e →
        (toolLoop g root fuel st am tcs).2 = .thrown e ∧
        (toolLoop g root fuel st am tcs).1.history = h := by
  intro fuel
  induction fuel with
  | zero =>
    intro st am tcs hlen hinv k h e hlog herr
    exfalso
    simp only [toolLoop] at hlog
    have hk : k < st.callLog.length := by
      by_contra hcontra
      rw [List.get?_eq_none.mpr (by omega)] at hlog
      cases hlog
    obtain ⟨r, hr⟩ := hinv k (by omega)
    rw [hr] at herr
    cases herr
  | succ fuel ih =>
    intro st am tcs hlen hinv k h e hlog herr
    cases hg : g st.callIdx with
    | error e2 =>
      simp only [toolLoop, hg] at hlog ⊢
      rcases callLog_entry st.callLog st.history h k hlog with ⟨hk, hold⟩ | ⟨hk, hh⟩
      · exfalso
        obtain ⟨r, hr⟩ := hinv k (by omega)
        rw [hr] at herr
        cases herr
      · have hke : k = st.callIdx := by omega
        rw [hke, hg] at herr
        cases herr
        exact ⟨rfl, hh.symm⟩
    | ok o =>
      cases o with
      | none =>
        simp only [toolLoop, hg] at hlog ⊢
        rcases callLog_entry st.callLog st.history h k hlog with ⟨hk, hold⟩ | ⟨hk, hh⟩
        · exfalso
          obtain ⟨r, hr⟩ := hinv k (by omega)
          rw [hr] at herr
          cases herr
        · exfalso
          have hke : k = st.callIdx := by omega
          rw [hke, hg] at herr
          cases herr
      | some r =>
        have hinv2 : ∀ j, j < st.callIdx + 1 → ∃ r2, g j = .ok (some r2) := by
          intro j hj
          by_cases hje : j = st.callIdx
          · exact ⟨r, hje ▸ hg⟩
          · exact hinv j (by omega)
        cases htc : r.toolCalls with
        | none =>
          simp only [toolLoop, hg, htc] at hlog ⊢
          exfalso
          rcases callLog_entry st.callLog st.history h k hlog with ⟨hk, hold⟩ | ⟨hk, hh⟩
          · obtain ⟨r2, hr2⟩ := hinv k (by omega)
            rw [hr2] at herr
            cases herr
          · have hke : k = st.callIdx := by omega
            rw [hke, hg] at herr
            cases herr
        | some l =>
          cases l with
          | nil =>
            simp only [toolLoop, hg, htc] at hlog ⊢
            exfalso
            rcases callLog_entry st.callLog st.history h k hlog with ⟨hk, hold⟩ | ⟨hk, hh⟩
            · obtain ⟨r2, hr2⟩ := hinv k (by omega)
              rw [hr2] at herr
              cases herr
            · have hke : k = st.callIdx := by omega
              rw [hke, hg] at herr
              cases herr
          | cons t ts =>
            by_cases hresp : r.response = []
            · simp only [toolLoop, hg, htc, if_pos hresp] at hlog ⊢
              have hlen2 : (roundPush root r.response (t :: ts) (bump st)).callLog.length
                  = (roundPush root r.response (t :: ts) (bump st)).callIdx := by
                simp [roundPush, bump, hlen]
              have hinv3 : ∀ j, j < (roundPush root r.response (t :: ts) (bump st)).callIdx →
                  ∃ r2, g j = .ok (some r2) := by
                intro j hj
                exact hinv2 j hj
              exact ih (roundPush root r.response (t :: ts) (bump st))
                r.response (some (t :: ts)) hlen2 hinv3 k h e hlog herr
            · simp only [toolLoop, hg, htc, if_neg hresp] at hlog ⊢
              exfalso
              rcases callLog_entry st.callLog st.history h k hlog with ⟨hk, hold⟩ | ⟨hk, hh⟩
              · obtain ⟨r2, hr2⟩ := hinv k (by omega)
                rw [hr2] at herr
                cases herr
              · have hke : k = st.callIdx := by omega
                rw [hke, hg] at herr
                cases herr

/-- C3: if a gateway call of the turn fails, sendMessage rethrows the
failure (through the catch block, so an empty message falls back to the
generic text) and the conversation history is left exactly as it was at
the moment that call was made, i.e. unmodified by the failed round. -/
theorem c3_gateway_failure (g : Gateway) (um : Str) (ctx : Option Str)
    (cn : Option TopicNode) (h0 : List LLMMessage) (k : Nat)
    (hsnap : List LLMMessage) (e : Str)
    (hlog : (sendMessage g um ctx cn h0).callLog.get? k = some hsnap)
    (herr : g k = .error e) :
    (sendMessage g um ctx cn h0).result = .thrown (wrapErr e) ∧
    (sendMessage g um ctx cn h0).history = hsnap := by
  cases hg0 : g 0 with
  | error e0 =>
    unfold sendMessage at hlog ⊢
    simp only [hg0, mkOutcome, initSt] at hlog ⊢
    obtain ⟨hk0, hx⟩ := single_entry_log hlog
    subst hk0
    rw [hg0] at herr
    injection herr with he
    subst he
    exact ⟨rfl, hx.symm⟩
  | ok o =>
    cases o with
    | none =>
      unfold sendMessage at hlog ⊢
      simp only [hg0, mkOutcome, initSt] at hlog ⊢
      obtain ⟨hk0, hx⟩ := single_entry_log hlog
      subst hk0
      rw [hg0] at herr
      cases herr
    | some r =>
      by_cases hval : r.response = [] ∧ r.toolCalls = none
      · unfold sendMessage at hlog ⊢
        simp only [hg0] at hlog ⊢
        rw [if_pos hval] at hlog ⊢
        simp only [mkOutcome, initSt] at hlog ⊢
        obtain ⟨hk0, hx⟩ := single_entry_log hlog
        subst hk0
        rw [hg0] at herr
        cases herr
      · cases htc : r.toolCalls with
        | none =>
          unfold sendMessage at hlog ⊢
          simp only [hg0] at hlog ⊢
          rw [if_neg hval] at hlog ⊢
          simp only [htc, sendFinal, trimHistory, initSt] at hlog ⊢
          obtain ⟨hk0, hx⟩ := single_entry_log hlog
          subst hk0
          rw [hg0] at herr
          cases herr
        | some l =>
          cases l with
          | nil =>
            unfold sendMessage at hlog ⊢
            simp only [hg0] at hlog ⊢
            rw [if_neg hval] at hlog ⊢
            simp only [htc, sendFinal, trimHistory, initSt] at hlog ⊢
            obtain ⟨hk0, hx⟩ := single_entry_log hlog
            subst hk0
            rw [hg0] at herr
            cases herr
          | cons t ts =>
            cases cn with
            | none =>
              unfold sendMessage at hlog ⊢
              simp only [hg0] at hlog ⊢
              rw [if_neg hval] at hlog ⊢
              simp only [htc, mkOutcome, initSt] at hlog ⊢
              obtain ⟨hk0, hx⟩ := single_entry_log hlog
              subst hk0
              rw [hg0] at herr
              cases herr
            | some root =>
              unfold sendMessage at hlog ⊢
              simp only [hg0] at hlog ⊢
              rw [if_neg hval] at hlog ⊢
              simp only [htc] at hlog ⊢
              rw [sendFinish_callLog] at hlog
              have key := toolLoop_fail g (some root) 5
                (roundPush (some root) r.response (t :: ts) (initSt um ctx h0))
                r.response (some (t :: ts)) rfl
                (by
                  intro j hj
                  have hone : (roundPush (some root) r.response (t :: ts)
                      (initSt um ctx h0)).callIdx = 1 := rfl
                  rw [hone] at hj
                  have hj0 : j = 0 := by omega
                  subst hj0
                  exact ⟨r, hg0⟩)
                k hsnap e hlog herr
              have hsplit : toolLoop g (some root) 5
                  (roundPush (some root) r.response (t :: ts) (initSt um ctx h0))
                  r.response (some (t :: ts))
                  = ((toolLoop g (some root) 5
                      (roundPush (some root) r.response (t :: ts) (initSt um ctx h0))
                      r.response (some (t :: ts))).1,
                     (toolLoop g (some root) 5
                      (roundPush (some root) r.response (t :: ts) (initSt um ctx h0))
                      r.response (some (t :: ts))).2) := rfl
              rw [hsplit, key.1]
              exact ⟨rfl, key.2⟩

/-- A gateway that requests tools on the first two calls and throws on its
third call. -/
def failAt2Gw : Gateway := fun k =>
  if k = 0 then .ok (some ⟨[], some [tcA]⟩)
  else if k = 2 then .error "boom".data
  else .ok (some ⟨[], some [tcB]⟩)

set_option maxRecDepth 10000 in
/-- Witness for c3_gateway_failure: the third gateway call fails, the
error is rethrown, and the history equals the snapshot taken at that
call. -/
theorem c3_gateway_failure_witness :
    (sendMessage failAt2Gw "q".data none (some sampleLeaf) []).result
      = .thrown (wrapErr "boom".data) ∧
    (sendMessage failAt2Gw "q".data none (some sampleLeaf) []).history
      = ((sendMessage failAt2Gw "q".data none (some sampleLeaf) []).callLog.getD 2 []) :=
  c3_gateway_failure failAt2Gw "q".data none (some sampleLeaf) [] 2
    ((sendMessage failAt2Gw "q".data none (some sampleLeaf) []).callLog.getD 2 [])
    "boom".data (by decide) rfl

lemma toolLoop_pairing (g : Gateway) (root : Option TopicNode)
    (base : List LLMMessage) :
    ∀ (fuel : Nat) (st : LoopSt) (am : Str) (tcs : Option (List ToolCall)),
      st.executed = (st.rounds.map RoundRec.batch).join →
      st.appendLog = base ++ (st.rounds.map
        (fun rd => roundMsgs root rd.respText rd.batch)).join →
      ((toolLoop g root fuel st am tcs).1.executed
          = (((toolLoop g root fuel st am tcs).1.rounds).map RoundRec.batch).join ∧
        (toolLoop g root fuel st am tcs).1.appendLog
          = base ++ (((toolLoop g root fuel st am tcs).1.rounds).map
              (fun rd => roundMsgs root rd.respText rd.batch)).join) := by
  intro fuel
  induction fuel with
  | zero =>
    intro st am tcs h1 h2
    exact ⟨h1, h2⟩
  | succ fuel ih =>
    intro st am tcs h1 h2
    cases hg : g st.callIdx with
    | error e =>
      simp only [toolLoop, hg, snap]
      exact ⟨h1, h2⟩
    | ok o =>
      cases o with
      | none =>
        simp only [toolLoop, hg, snap]
        exact ⟨h1, h2⟩
      | some r =>
        cases htc : r.toolCalls with
        | none =>
          simp only [toolLoop, hg, htc, bump]
          exact ⟨h1, h2⟩
        | some l =>
          cases l with
          | nil =>
            simp only [toolLoop, hg, htc, bump]
            exact ⟨h1, h2⟩
          | cons t ts =>
            by_cases hresp : r.response = []
            · simp only [toolLoop, hg, htc, if_pos hresp]
              refine ih (roundPush root r.response (t :: ts) (bump st))
                r.response (some (t :: ts)) ?_ ?_
              · simp only [roundPush, bump, h1]
                simp [List.join_append]
              · simp only [roundPush, bump, h2]
                simp [List.join_append]
            · simp only [toolLoop, hg, htc, if_neg hresp, bump]
              exact ⟨h1, h2⟩

lemma sendFinish_rounds (p : LoopSt × LoopExit) :
    (sendFinish p).rounds = p.1.rounds := by
  rcases p with ⟨st, ex⟩
  cases ex with
  | thrown e => rfl
  | finished am tcs =>
    by_cases ham : am = [] <;> simp [sendFinish, sendFinal, mkOutcome, ham]

lemma sendFinish_executed (p : LoopSt × LoopExit) :
    (sendFinish p).executed = p.1.executed := by
  rcases p with ⟨st, ex⟩
  cases ex with
  | thrown e => rfl
  | finished am tcs =>
    by_cases ham : am = [] <;> simp [sendFinish, sendFinal, mkOutcome, ham]

lemma toolLoop_exec (g : Gateway) (root : Option TopicNode) :
    ∀ (fuel : Nat) (st : LoopSt) (am : Str) (tcs : Option (List ToolCall)),
      st.callLog.length = st.callIdx →
      st.rounds.length = st.callIdx →
      ((∃ pre, (toolLoop g root fuel st am tcs).1.rounds = st.rounds ++ pre) ∧
        (∀ i ri li, st.callIdx ≤ i →
          i < (toolLoop g root fuel st am tcs).1.callLog.length →
          g i = .ok (some ri) → ri.response = [] → ri.toolCalls = some li →
          li ≠ [] →
          (toolLoop g root fuel st am tcs).1.rounds.get? i = some ⟨[], li⟩) ∧
        (∀ i rec2, st.callIdx ≤ i →
          (toolLoop g root fuel st am tcs).1.rounds.get? i = some rec2 →
          ∃ ri, g i = .ok (some ri) ∧ ri.response = [] ∧ rec2.respText = [] ∧
            ri.toolCalls = some rec2.batch ∧ rec2.batch ≠ [])) := by
  intro fuel
  induction fuel with
  | zero =>
    intro st am tcs hcl hrd
    simp only [toolLoop]
    refine ⟨⟨[], by simp⟩, ?_, ?_⟩
    · intro i ri li hge hlt hgi hresp htci hline
      exfalso
      omega
    · intro i rec2 hge hrec
      exfalso
      have hlt : i < st.rounds.length := by
        by_contra hcon
        rw [List.get?_eq_none.mpr (by omega)] at hrec
        cases hrec
      omega
  | succ fuel ih =>
    intro st am tcs hcl hrd
    cases hg : g st.callIdx with
    | error e =>
      simp only [toolLoop, hg, snap]
      refine ⟨⟨[], by simp⟩, ?_, ?_⟩
      · intro i ri li hge hlt hgi hresp htci hline
        exfalso
        have hlen : (st.callLog ++ [st.history]).length = st.callIdx + 1 := by
          simp [hcl]
        have hie : i = st.callIdx := by omega
        rw [hie, hg] at hgi
        cases hgi
      · intro i rec2 hge hrec
        exfalso
        have hlt : i < st.rounds.length := by
          by_contra hcon
          rw [List.get?_eq_none.mpr (by omega)] at hrec
          cases hrec
        omega
    | ok o =>
      cases o with
      | none =>
        simp only [toolLoop, hg, snap]
        refine ⟨⟨[], by simp⟩, ?_, ?_⟩
        · intro i ri li hge hlt hgi hresp htci hline
          exfalso
          have hlen : (st.callLog ++ [st.history]).length = st.callIdx + 1 := by
            simp [hcl]
          have hie : i = st.callIdx := by omega
          rw [hie, hg] at hgi
          injection hgi with h2
          cases h2
        · intro i rec2 hge hrec
          exfalso
          have hlt : i < st.rounds.length := by
            by_contra hcon
            rw [List.get?_eq_none.mpr (by omega)] at hrec
            cases hrec
          omega
      | some r =>
        cases htc : r.toolCalls with
        | none =>
          simp only [toolLoop, hg, htc, bump]
          refine ⟨⟨[], by simp⟩, ?_, ?_⟩
          · intro i ri li hge hlt hgi hresp htci hline
            exfalso
            have hlen : (st.callLog ++ [st.history]).length = st.callIdx + 1 := by
              simp [hcl]
            have hie : i = st.callIdx := by omega
            rw [hie, hg] at hgi
            injection hgi with h2
            injection h2 with h3
            subst h3
            rw [htc] at htci
            cases htci
          · intro i rec2 hge hrec
            exfalso
            have hlt : i < st.rounds.length := by
              by_contra hcon
              rw [List.get?_eq_none.mpr (by omega)] at hrec
              cases hrec
            omega
        | some l =>
          cases l with
          | nil =>
            simp only [toolLoop, hg, htc, bump]
            refine ⟨⟨[], by simp⟩, ?_, ?_⟩
            · intro i ri li hge hlt hgi hresp htci hline
              exfalso
              have hlen : (st.callLog ++ [st.history]).length = st.callIdx + 1 := by
                simp [hcl]
              have hie : i = st.callIdx := by omega
              rw [hie, hg] at hgi
              injection hgi with h2
              injection h2 with h3
              subst h3
              rw [htc] at htci
              injection htci with h4
              exact hline h4.symm
            · intro i rec2 hge hrec
              exfalso
              have hlt : i < st.rounds.length := by
                by_contra hcon
                rw [List.get?_eq_none.mpr (by omega)] at hrec
                cases hrec
              omega
          | cons t2 ts2 =>
            by_cases hresp0 : r.response = []
            · simp only [toolLoop, hg, htc, if_pos hresp0]
              have h1a : (roundPush root r.response (t2 :: ts2) (bump st)).callLog.length
                  = (roundPush root r.response (t2 :: ts2) (bump st)).callIdx := by
                simp [roundPush, bump, hcl]
              have h2a : (roundPush root r.response (t2 :: ts2) (bump st)).rounds.length
                  = (roundPush root r.response (t2 :: ts2) (bump st)).callIdx := by
                simp [roundPush, bump, hrd]
              obtain ⟨⟨pre, hpre⟩, ihc, ihs⟩ := ih
                (roundPush root r.response (t2 :: ts2) (bump st))
                r.response (some (t2 :: ts2)) h1a h2a
              have hrp : (roundPush root r.response (t2 :: ts2) (bump st)).rounds
                  = st.rounds ++ [⟨r.response, t2 :: ts2⟩] := rfl
              refine ⟨⟨⟨r.response, t2 :: ts2⟩ :: pre, ?_⟩, ?_, ?_⟩
              · rw [hpre, hrp, List.append_assoc]
                rfl
              · intro i ri li hge hlt hgi hresp htci hline
                by_cases hie : i = st.callIdx
                · subst hie
                  rw [hg] at hgi
                  injection hgi with h2
                  injection h2 with h3
                  subst h3
                  rw [htc] at htci
                  injection htci with h4
                  rw [hpre, hrp, List.append_assoc,
                    List.get?_append_right (by omega)]
                  have hz : st.callIdx - st.rounds.length = 0 := by omega
                  rw [hz]
                  rw [← h4, hresp]
                  rfl
                · have hge2 : (roundPush root r.response (t2 :: ts2) (bump st)).callIdx ≤ i := by
                    have hx : (roundPush root r.response (t2 :: ts2) (bump st)).callIdx
                        = st.callIdx + 1 := rfl
                    omega
                  exact ihc i ri li hge2 hlt hgi hresp htci hline
              · intro i rec2 hge hrec
                by_cases hie : i = st.callIdx
                · subst hie
                  rw [hpre, hrp, List.append_assoc,
                    List.get?_append_right (by omega)] at hrec
                  have hz : st.callIdx - st.rounds.length = 0 := by omega
                  rw [hz] at hrec
                  simp only [List.get?] at hrec
                  injection hrec with h2
                  subst h2
                  exact ⟨r, hg, hresp0, hresp0, htc, by simp⟩
                · have hge2 : (roundPush root r.response (t2 :: ts2) (bump st)).callIdx ≤ i := by
                    have hx : (roundPush root r.response (t2 :: ts2) (bump st)).callIdx
                        = st.callIdx + 1 := rfl
                    omega
                  exact ihs i rec2 hge2 hrec
            · simp only [toolLoop, hg, htc, if_neg hresp0, bump]
              refine ⟨⟨[], by simp⟩, ?_, ?_⟩
              · intro i ri li hge hlt hgi hresp htci hline
                exfalso
                have hlen : (st.callLog ++ [st.history]).length = st.callIdx + 1 := by
                  simp [hcl]
                have hie : i = st.callIdx := by omega
                rw [hie, hg] at hgi
                injection hgi with h2
                injection h2 with h3
                subst h3
                exact hresp0 hresp
              · intro i rec2 hge hrec
                exfalso
                have hlt : i < st.rounds.length := by
                  by_contra hcon
                  rw [List.get?_eq_none.mpr (by omega)] at hrec
                  cases hrec
                omega

/-- C2 (amended): in every turn with a focus node whose first response
carries tool invocations, the invocations the gateway returned ARE
executed, exactly once each: the executed trace is the concatenation of
the recorded rounds, round 0 is exactly the first-response batch, every
follow-up call the orchestrator made whose response carried no text and a
nonempty batch is recorded at its call index with exactly that batch, and
conversely every recorded follow-up round is exactly the text-less
nonempty batch of that gateway call; the append log is the user message,
then for each round the assistant message carrying the batch immediately
followed by one tool-result message per invocation in order, and at most
one final plain assistant message.  A follow-up response carrying both
text and invocations ends the turn with those invocations unexecuted (see
the counterexample). -/
theorem c2_exec_pairing (g : Gateway) (um : Str) (ctx : Option Str)
    (root : TopicNode) (h0 : List LLMMessage) (r0 : GwResult)
    (l0 : List ToolCall)
    (hg0 : g 0 = .ok (some r0)) (ht0 : r0.toolCalls = some l0)
    (hl0 : l0 ≠ []) :
    (sendMessage g um ctx (some root) h0).executed
      = (((sendMessage g um ctx (some root) h0).rounds).map RoundRec.batch).join ∧
    (sendMessage g um ctx (some root) h0).rounds.get? 0
      = some ⟨r0.response, l0⟩ ∧
    (∀ i ri li, 1 ≤ i →
      i < (sendMessage g um ctx (some root) h0).callLog.length →
      g i = .ok (some ri) → ri.response = [] → ri.toolCalls = some li →
      li ≠ [] →
      (sendMessage g um ctx (some root) h0).rounds.get? i = some ⟨[], li⟩) ∧
    (∀ i rec2, 1 ≤ i →
      (sendMessage g um ctx (some root) h0).rounds.get? i = some rec2 →
      ∃ ri, g i = .ok (some ri) ∧ ri.response = [] ∧ rec2.respText = [] ∧
        ri.toolCalls = some rec2.batch ∧ rec2.batch ≠ []) ∧
    (∃ tail,
      (sendMessage g um ctx (some root) h0).appendLog
        = userMsgOf um ctx
            :: (((sendMessage g um ctx (some root) h0).rounds).map
                (fun rd => roundMsgs (some root) rd.respText rd.batch)).join
            ++ tail ∧
      (tail = [] ∨ ∃ s, tail = [⟨Role.assistant, s, none, none⟩])) := by
  obtain ⟨t, ts, rfl⟩ : ∃ t ts, l0 = t :: ts := by
    cases l0 with
    | nil => exact absurd rfl hl0
    | cons a b => exact ⟨a, b, rfl⟩
  have hval : ¬ (r0.response = [] ∧ r0.toolCalls = none) := by
    rintro ⟨-, hcontra⟩
    rw [ht0] at hcontra
    cases hcontra
  unfold sendMessage
  simp only [hg0]
  rw [if_neg hval]
  simp only [ht0]
  obtain ⟨hexec, hlog⟩ := toolLoop_pairing g (some root)
    [userMsgOf um ctx] 5
    (roundPush (some root) r0.response (t :: ts) (initSt um ctx h0))
    r0.response (some (t :: ts))
    (by simp [roundPush, initSt])
    (by simp [roundPush, initSt, roundMsgs])
  obtain ⟨⟨pre, hpre⟩, hcomp, hsound⟩ := toolLoop_exec g (some root) 5
    (roundPush (some root) r0.response (t :: ts) (initSt um ctx h0))
    r0.response (some (t :: ts)) rfl rfl
  have hrp : (roundPush (some root) r0.response (t :: ts)
      (initSt um ctx h0)).rounds = [⟨r0.response, t :: ts⟩] := rfl
  have hsplit : toolLoop g (some root) 5
      (roundPush (some root) r0.response (t :: ts) (initSt um ctx h0))
      r0.response (some (t :: ts))
      = ((toolLoop g (some root) 5
          (roundPush (some root) r0.response (t :: ts) (initSt um ctx h0))
          r0.response (some (t :: ts))).1,
         (toolLoop g (some root) 5
          (roundPush (some root) r0.response (t :: ts) (initSt um ctx h0))
          r0.response (some (t :: ts))).2) := rfl
  refine ⟨?_, ?_, ?_, ?_, ?_⟩
  · rw [sendFinish_executed, sendFinish_rounds]
    exact hexec
  · rw [sendFinish_rounds, hpre, hrp]
    rfl
  · intro i ri li h1i hical hgi hresp htci hline
    rw [sendFinish_callLog] at hical
    rw [sendFinish_rounds]
    exact hcomp i ri li h1i hical hgi hresp htci hline
  · intro i rec2 h1i hrec
    rw [sendFinish_rounds] at hrec
    exact hsound i rec2 h1i hrec
  · rw [sendFinish_rounds]
    cases hexit : (toolLoop g (some root) 5
        (roundPush (some root) r0.response (t :: ts) (initSt um ctx h0))
        r0.response (some (t :: ts))).2 with
    | thrown e =>
      rw [hsplit, hexit]
      simp only [sendFinish, mkOutcome]
      exact ⟨[], by rw [hlog]; simp, Or.inl rfl⟩
    | finished am tcs2 =>
      rw [hsplit, hexit]
      by_cases ham : am = []
      · simp only [sendFinish, ham, eq_self_iff_true, if_true, mkOutcome]
        exact ⟨[], by rw [hlog]; simp, Or.inl rfl⟩
      · simp only [sendFinish, ham, if_false, sendFinal]
        refine ⟨[⟨Role.assistant, am, none, none⟩], ?_, Or.inr ⟨am, rfl⟩⟩
        rw [hlog]
        simp

/-- A gateway whose first response requests one tool call and whose second
response carries both final text and one more tool invocation. -/
def textAndToolsGw : Gateway := fun k =>
  if k = 0 then .ok (some ⟨[], some [tcA]⟩)
  else .ok (some ⟨"done".data, some [tcB]⟩)

set_option maxRecDepth 10000 in
/-- Counterexample to C2 as stated: when a follow-up response carries both
text and a tool invocation, the turn ends returning that invocation
unexecuted — only the first-round invocation was executed, yet the gateway
returned two invocations in the turn. -/
theorem c2_counterexample :
    (sendMessage textAndToolsGw "q".data none (some sampleLeaf) []).executed
      = [tcA] ∧
    (sendMessage textAndToolsGw "q".data none (some sampleLeaf) []).result
      = .ok ⟨"done".data, some [tcB]⟩ ∧
    tcB ∉ (sendMessage textAndToolsGw "q".data none (some sampleLeaf) []).executed := by
  decide

/-- A gateway whose first two responses are text-less single-invocation
batches and whose third response is plain final text. -/
def twoRoundGw : Gateway := fun k =>
  if k = 0 then .ok (some ⟨[], some [tcA]⟩)
  else if k = 1 then .ok (some ⟨[], some [tcB]⟩)
  else .ok (some ⟨"done".data, none⟩)

set_option maxRecDepth 100000 in
set_option maxHeartbeats 1000000 in
theorem c2_exec_pairing_witness :
    ((sendMessage twoRoundGw "q".data none (some sampleLeaf) []).executed
      = (((sendMessage twoRoundGw "q".data none (some sampleLeaf) []).rounds).map
          RoundRec.batch).join) ∧
    ((sendMessage twoRoundGw "q".data none (some sampleLeaf) []).rounds.get? 0
      = some ⟨[], [tcA]⟩) ∧
    ((sendMessage twoRoundGw "q".data none (some sampleLeaf) []).rounds.get? 1
      = some ⟨[], [tcB]⟩) ∧
    (∃ tail,
      (sendMessage twoRoundGw "q".data none (some sampleLeaf) []).appendLog
        = userMsgOf "q".data none
            :: (((sendMessage twoRoundGw "q".data none (some sampleLeaf) []).rounds).map
                (fun rd => roundMsgs (some sampleLeaf) rd.respText rd.batch)).join
            ++ tail ∧
      (tail = [] ∨ ∃ s, tail = [⟨Role.assistant, s, none, none⟩])) := by
  have h := c2_exec_pairing twoRoundGw "q".data none sampleLeaf []
    ⟨[], some [tcA]⟩ [tcA] rfl rfl (by decide)
  exact ⟨h.1, h.2.1,
    h.2.2.1 1 ⟨[], some [tcB]⟩ [tcB] (by decide) (by decide) rfl rfl rfl (by decide),
    h.2.2.2.2⟩

end LLMService
